import Mathlib

/-!
Verification of the sparse-matrix program in `src/sparse.py`.

The program stores a sparse matrix as a Python dict from `(row, col)` pairs
to integer values, together with `row_count` / `col_count` metadata.  We
model the dict as an association list that preserves insertion order (as
Python dicts do): updating an existing key replaces its value in place,
a new key is appended at the end.  Matrix indices and stored values are
Python ints, modelled as `Int`; `row_count` / `col_count` are likewise
`Int` (the code never forces them non-negative).

Raised exceptions are modelled with `Except`: the arithmetic operations
return `Except String SparseMatrix` carrying the exact message of the
`ValueError` the code raises, and the loader returns
`Except LoadError SparseMatrix` with one constructor per distinct failure
of `SparseMatrix.from_file`.  File contents are modelled as the list of
lines (each a `List Char`), which is what `readlines` hands to the parsing
code; `re.match` is modelled by parsers that match a *prefix* of the line,
exactly as `re.match` does (it does not anchor at the end).
-/

namespace Sparse

abbrev Key := Int × Int

abbrev Entries := List (Key × Int)

/-- `d.get(key, 0)` on a Python dict: first (= unique) binding, default 0. -/
def dictGet : Entries → Key → Int
  | [], _ => 0
  | p :: t, k => if p.1 = k then p.2 else dictGet t k

/-- `d[key] = v` on a Python dict: replace in place, or append a new binding. -/
def dictSet : Entries → Key → Int → Entries
  | [], k, v => [(k, v)]
  | p :: t, k, v => if p.1 = k then (k, v) :: t else p :: dictSet t k v

/-- The `SparseMatrix` class of `src/sparse.py`: dimension metadata plus the
dict of stored entries. -/
structure SparseMatrix where
  row_count : Int
  col_count : Int
  data : Entries
  deriving Repr, DecidableEq

namespace SparseMatrix

/-- `SparseMatrix.get_element`: stored value at `(row_idx, col_idx)`, or 0. -/
def get_element (m : SparseMatrix) (row_idx col_idx : Int) : Int :=
  dictGet m.data (row_idx, col_idx)

/-- `SparseMatrix.set_element`: grow `row_count` / `col_count` to cover the
index if needed, then store the value (overwriting any existing one). -/
def set_element (m : SparseMatrix) (row_idx col_idx value : Int) : SparseMatrix where
  row_count := if row_idx ≥ m.row_count then row_idx + 1 else m.row_count
  col_count := if col_idx ≥ m.col_count then col_idx + 1 else m.col_count
  data := dictSet m.data (row_idx, col_idx) value

/-- The first loop shared by `add` and `subtract`: copy the entries of
`self` into the result one `set_element` at a time. -/
def copyLoop (l : Entries) (m : SparseMatrix) : SparseMatrix :=
  l.foldl (fun acc p => acc.set_element p.1.1 p.1.2 p.2) m

/-- The second loop of `add`: for each entry of `other`, read the value the
result currently holds at its key and store their sum. -/
def addLoop (l : Entries) (m : SparseMatrix) : SparseMatrix :=
  l.foldl (fun acc p => acc.set_element p.1.1 p.1.2 (acc.get_element p.1.1 p.1.2 + p.2)) m

/-- The second loop of `subtract`: like `addLoop` with subtraction. -/
def subLoop (l : Entries) (m : SparseMatrix) : SparseMatrix :=
  l.foldl (fun acc p => acc.set_element p.1.1 p.1.2 (acc.get_element p.1.1 p.1.2 - p.2)) m

/-- `SparseMatrix.add`: dimension check, then copy `self`'s entries into a
fresh result and fold `other`'s entries on top of it. -/
def add (m other_matrix : SparseMatrix) : Except String SparseMatrix :=
  if m.row_count ≠ other_matrix.row_count ∨ m.col_count ≠ other_matrix.col_count then
    .error "Matrices must have the same dimensions for addition."
  else
    .ok (addLoop other_matrix.data (copyLoop m.data ⟨m.row_count, m.col_count, []⟩))

/-- `SparseMatrix.subtract`: same shape check and loops as `add`, with the
second loop subtracting `other`'s values. -/
def subtract (m other_matrix : SparseMatrix) : Except String SparseMatrix :=
  if m.row_count ≠ other_matrix.row_count ∨ m.col_count ≠ other_matrix.col_count then
    .error "Matrices must have the same dimensions for subtraction."
  else
    .ok (subLoop other_matrix.data (copyLoop m.data ⟨m.row_count, m.col_count, []⟩))

/-- The inner loop of `multiply` for one stored entry `((row, col), val)` of
`self`: for each `k` in `range(n)` (with `n = other.col_count`), accumulate
`val * other.get(col, k)` into the result at `(row, k)` unless that factor
is zero. -/
def mulInner (other : SparseMatrix) (row col val : Int) (n : Nat) (acc : SparseMatrix) :
    SparseMatrix :=
  (List.range n).foldl (fun acc2 (k : Nat) =>
    let other_val := other.get_element col (k : Int)
    if other_val ≠ 0 then
      acc2.set_element row (k : Int) (acc2.get_element row (k : Int) + val * other_val)
    else acc2) acc

/-- The outer loop of `multiply`: run `mulInner` for every stored entry. -/
def mulLoop (other : SparseMatrix) (l : Entries) (n : Nat) (m : SparseMatrix) : SparseMatrix :=
  l.foldl (fun acc p => mulInner other p.1.1 p.1.2 p.2 n acc) m

/-- `SparseMatrix.multiply`: dimension check, then the nested accumulation
loops over `self`'s entries and `range(other_matrix.col_count)` (empty when
that count is not positive). -/
def multiply (m other_matrix : SparseMatrix) : Except String SparseMatrix :=
  if m.col_count ≠ other_matrix.row_count then
    .error "Number of columns of the first matrix must equal the number of rows of the second matrix."
  else
    .ok (mulLoop other_matrix m.data other_matrix.col_count.toNat
      ⟨m.row_count, other_matrix.col_count, []⟩)

end SparseMatrix

/-! ## The loader (`SparseMatrix.from_file`) and serializer (`__str__`) -/

/-- The whitespace characters of Python's `str.strip()` / the regexes'
`\s`, restricted to ASCII (the only characters the format produces). -/
def pySpace (c : Char) : Bool :=
  c = ' ' || c = '\t' || c = '\n' || c = '\r' || c = '\x0b' || c = '\x0c'

/-- Python `str.strip()`: drop leading and trailing whitespace. -/
def strip (l : List Char) : List Char :=
  ((l.dropWhile pySpace).reverse.dropWhile pySpace).reverse

/-- Decimal value of a digit string, as `int()` computes it. -/
def digitsVal (ds : List Char) : Nat :=
  ds.foldl (fun a c => 10 * a + (c.toNat - 48)) 0

/-- `\d+` at the start of the input: the (maximal, non-empty) leading run of
digits and the rest of the input. -/
def parseNat (cs : List Char) : Option (Nat × List Char) :=
  if cs.takeWhile Char.isDigit = [] then none
  else some (digitsVal (cs.takeWhile Char.isDigit), cs.dropWhile Char.isDigit)

/-- `re.match(r'rows=(\d+)', line)`: a prefix match, trailing characters
after the digits are ignored. -/
def parseRows : List Char → Option Nat
  | 'r' :: 'o' :: 'w' :: 's' :: '=' :: rest => (parseNat rest).map (fun p => p.1)
  | _ => none

/-- `re.match(r'cols=(\d+)', line)`: a prefix match. -/
def parseCols : List Char → Option Nat
  | 'c' :: 'o' :: 'l' :: 's' :: '=' :: rest => (parseNat rest).map (fun p => p.1)
  | _ => none

/-- A single literal character of the regex: succeed exactly when the input
starts with that character, returning the rest of the input. -/
def expectChar (c : Char) : List Char → Option (List Char)
  | x :: t => if x = c then some t else none
  | [] => none

/-- `-?\d+` at the start of the input.  (The regex is deterministic here: if
a minus sign is present, digits must follow it.) -/
def parseSigned (cs : List Char) : Option (Int × List Char) :=
  match cs with
  | x :: t =>
    if x = '-' then (parseNat t).map (fun p => (-(p.1 : Int), p.2))
    else (parseNat (x :: t)).map (fun p => ((p.1 : Int), p.2))
  | [] => none

/-- `re.match(r'\((\d+),\s*(\d+),\s*(-?\d+)\)', line)`: a prefix match of the
entry triple; anything after the closing parenthesis is ignored. -/
def parseEntry (cs : List Char) : Option (Nat × Nat × Int) :=
  (expectChar '(' cs).bind fun rest0 =>
  (parseNat rest0).bind fun p1 =>
  (expectChar ',' p1.2).bind fun rest2 =>
  (parseNat (rest2.dropWhile pySpace)).bind fun p2 =>
  (expectChar ',' p2.2).bind fun rest4 =>
  (parseSigned (rest4.dropWhile pySpace)).bind fun p3 =>
  (expectChar ')' p3.2).map fun _ => (p1.1, p2.1, p3.1)

/-- The distinct failures of `SparseMatrix.from_file` (each a `ValueError`
in the code, told apart by its message). -/
inductive LoadError where
  | notEnoughLines : LoadError
  | malformedHeader : LoadError
  | malformedEntry : Nat → List Char → LoadError
  deriving Repr, DecidableEq

/-- The entry loop of `from_file` (`for i in range(2, len(lines))`): skip
lines that are empty after stripping, set matched entries, fail with the
1-based line number (`i + 1`) and the stripped line otherwise.  `idx` is the
0-based index of the current line in the whole file. -/
def loadEntries (m : SparseMatrix) : List (List Char) → Nat → Except LoadError SparseMatrix
  | [], _ => .ok m
  | l :: rest, idx =>
    let s := strip l
    if s = [] then loadEntries m rest (idx + 1)
    else
      match parseEntry s with
      | none => .error (.malformedEntry (idx + 1) s)
      | some (r, c, v) => loadEntries (m.set_element (r : Int) (c : Int) v) rest (idx + 1)

/-- `SparseMatrix.from_file`, on the list of lines `readlines` returns:
require two header lines matching `rows=` / `cols=`, then run the entry
loop on the remaining lines starting from a matrix of the declared size. -/
def from_lines : List (List Char) → Except LoadError SparseMatrix
  | l0 :: l1 :: body =>
    match parseRows (strip l0), parseCols (strip l1) with
    | some r, some c => loadEntries ⟨(r : Int), (c : Int), []⟩ body 2
    | _, _ => .error .malformedHeader
  | _ => .error .notEnoughLines

deriving instance DecidableEq for Except

/-- Fuel-driven digit printer; the fuel always suffices when `n < fuel`. -/
def natToDigitsAux (fuel n : Nat) : List Char :=
  match fuel with
  | 0 => []
  | fuel + 1 =>
    if n < 10 then [Char.ofNat (48 + n)]
    else natToDigitsAux fuel (n / 10) ++ [Char.ofNat (48 + n % 10)]

/-- The decimal digits of `n`, most significant first — what Python's
string formatting prints for a non-negative int. -/
def natToDigits (n : Nat) : List Char :=
  natToDigitsAux (n + 1) n

/-- Python's `repr` of an int: optional minus sign, then decimal digits. -/
def intRepr (i : Int) : List Char :=
  if i < 0 then '-' :: natToDigits (-i).toNat else natToDigits i.toNat

/-- One line `f"({key[0]}, {key[1]}, {val})"` of `__str__`. -/
def entryLine (p : Key × Int) : List Char :=
  '(' :: (intRepr p.1.1 ++ ',' :: ' ' :: intRepr p.1.2 ++ ',' :: ' ' :: intRepr p.2 ++ [')'])

/-- `SparseMatrix.__str__` as a list of lines: the two header lines, then
one line per stored entry in dict order.  (The code joins these with
newlines and strips the trailing one; splitting the file back into lines
recovers exactly this list.) -/
def toLines (m : SparseMatrix) : List (List Char) :=
  ('r' :: 'o' :: 'w' :: 's' :: '=' :: intRepr m.row_count)
    :: ('c' :: 'o' :: 'l' :: 's' :: '=' :: intRepr m.col_count)
    :: m.data.map entryLine

/-! ## Heap-level model of the arithmetic methods

The purity claim is about mutation, which the functional definitions above
cannot express.  Here the Python heap is modelled explicitly: a `Store` is
the list of `SparseMatrix` objects allocated so far, and a matrix is
referred to by its index in that list.  Each method reads its operands from
the store, allocates the result object, and performs every
`result_matrix.set_element(...)` call of the source as an in-place update
of the result's cell of the store — exactly the writes the Python code
performs.  The operands are only ever read. -/

abbrev Store := List SparseMatrix

instance : Inhabited SparseMatrix := ⟨⟨0, 0, []⟩⟩

/-- Dereference a matrix object in the store. -/
def storeObj (σ : Store) (r : Nat) : SparseMatrix := σ.getD r default

/-- `obj.set_element(row, col, v)` as a store mutation. -/
def storeSet (σ : Store) (r : Nat) (row col v : Int) : Store :=
  σ.set r ((storeObj σ r).set_element row col v)

/-- `obj.get_element(row, col)` read from the store. -/
def storeVal (σ : Store) (r : Nat) (row col : Int) : Int :=
  (storeObj σ r).get_element row col

/-- `matrix1.add(matrix2)` on the heap: validate, allocate the result, then
run the two loops, writing only through the result reference. -/
def addS (σ : Store) (a b : Nat) : Store × Except String Nat :=
  let A := storeObj σ a
  let B := storeObj σ b
  if A.row_count ≠ B.row_count ∨ A.col_count ≠ B.col_count then
    (σ, .error "Matrices must have the same dimensions for addition.")
  else
    let res := σ.length
    let σ1 := σ ++ [⟨A.row_count, A.col_count, []⟩]
    let σ2 := A.data.foldl (fun s p => storeSet s res p.1.1 p.1.2 p.2) σ1
    let σ3 := B.data.foldl
      (fun s p => storeSet s res p.1.1 p.1.2 (storeVal s res p.1.1 p.1.2 + p.2)) σ2
    (σ3, .ok res)

/-- `matrix1.subtract(matrix2)` on the heap. -/
def subtractS (σ : Store) (a b : Nat) : Store × Except String Nat :=
  let A := storeObj σ a
  let B := storeObj σ b
  if A.row_count ≠ B.row_count ∨ A.col_count ≠ B.col_count then
    (σ, .error "Matrices must have the same dimensions for subtraction.")
  else
    let res := σ.length
    let σ1 := σ ++ [⟨A.row_count, A.col_count, []⟩]
    let σ2 := A.data.foldl (fun s p => storeSet s res p.1.1 p.1.2 p.2) σ1
    let σ3 := B.data.foldl
      (fun s p => storeSet s res p.1.1 p.1.2 (storeVal s res p.1.1 p.1.2 - p.2)) σ2
    (σ3, .ok res)

/-- `matrix1.multiply(matrix2)` on the heap. -/
def multiplyS (σ : Store) (a b : Nat) : Store × Except String Nat :=
  let A := storeObj σ a
  let B := storeObj σ b
  if A.col_count ≠ B.row_count then
    (σ, .error "Number of columns of the first matrix must equal the number of rows of the second matrix.")
  else
    let res := σ.length
    let σ1 := σ ++ [⟨A.row_count, B.col_count, []⟩]
    let σ2 := A.data.foldl (fun s p =>
      (List.range B.col_count.toNat).foldl (fun s2 (k : Nat) =>
        let other_val := B.get_element p.1.2 (k : Int)
        if other_val ≠ 0 then
          storeSet s2 res p.1.1 (k : Int) (storeVal s2 res p.1.1 (k : Int) + p.2 * other_val)
        else s2) s) σ1
    (σ2, .ok res)

/-- The total contribution of the entries of `l` that lie in row `r` to the
product cell `(r, j)` when multiplying by `other` — the quantity the outer
multiplication loop accumulates. -/
def rowContrib (other : SparseMatrix) (l : Entries) (r j : Int) : Int :=
  ((l.filter (fun p => p.1.1 == r)).map (fun p => p.2 * other.get_element p.1.2 j)).sum

/-! ## Invariants -/

/-- The invariant of claim C5, exactly as the spec states it: every stored
key lies strictly below the dimension metadata. -/
abbrev BelowDims (m : SparseMatrix) : Prop :=
  ∀ p ∈ m.data, p.1.1 < m.row_count ∧ p.1.2 < m.col_count

/-- The matrices the Python program can actually build: dict keys are
unique, and every stored key is a pair of non-negative in-range indices. -/
abbrev Wf (m : SparseMatrix) : Prop :=
  (m.data.map Prod.fst).Nodup ∧
    ∀ p ∈ m.data, 0 ≤ p.1.1 ∧ p.1.1 < m.row_count ∧ 0 ≤ p.1.2 ∧ p.1.2 < m.col_count

/-- `Wf` plus non-negative dimension metadata — what the loader produces. -/
abbrev Inv (m : SparseMatrix) : Prop :=
  0 ≤ m.row_count ∧ 0 ≤ m.col_count ∧ Wf m

/-! Sanity checks of the embedding on concrete data. -/

example :
    SparseMatrix.multiply ⟨1, 2, [((0, 0), 1), ((0, 1), 2)]⟩ ⟨2, 1, [((0, 0), 3), ((1, 0), 4)]⟩
      = .ok ⟨1, 1, [((0, 0), 11)]⟩ := by decide

example :
    from_lines ["rows=2".toList, "cols=2".toList, "(0, 1, -5)".toList, "".toList]
      = .ok ⟨2, 2, [((0, 1), -5)]⟩ := by decide

example :
    from_lines ["rows=1".toList, "cols=1".toList, "(1, 2)".toList]
      = .error (.malformedEntry 3 "(1, 2)".toList) := by decide

example : toLines ⟨2, 2, [((0, 1), -5)]⟩
    = ["rows=2".toList, "cols=2".toList, "(0, 1, -5)".toList] := by decide

/-! ## Dictionary lemmas -/

theorem dictGet_dictSet (l : Entries) (k k' : Key) (v : Int) :
    dictGet (dictSet l k v) k' = if k' = k then v else dictGet l k' := by
  induction l with
  | nil =>
    show (if k = k' then v else dictGet [] k') = if k' = k then v else dictGet [] k'
    by_cases h : k = k'
    · rw [if_pos h, if_pos h.symm]
    · rw [if_neg h, if_neg fun hh => h hh.symm]
  | cons p t ih =>
    show dictGet (if p.1 = k then (k, v) :: t else p :: dictSet t k v) k' = _
    by_cases hpk : p.1 = k
    · rw [if_pos hpk]
      show (if k = k' then v else dictGet t k') = if k' = k then v else dictGet (p :: t) k'
      by_cases h : k = k'
      · rw [if_pos h, if_pos h.symm]
      · rw [if_neg h, if_neg fun hh => h hh.symm]
        show dictGet t k' = if p.1 = k' then p.2 else dictGet t k'
        rw [if_neg fun hh => h (hpk.symm.trans hh)]
    · rw [if_neg hpk]
      show (if p.1 = k' then p.2 else dictGet (dictSet t k v) k') = _
      by_cases hp' : p.1 = k'
      · rw [if_pos hp', if_neg fun hh : k' = k => hpk (hp'.trans hh)]
        show p.2 = if p.1 = k' then p.2 else dictGet t k'
        rw [if_pos hp']
      · rw [if_neg hp', ih]
        by_cases h : k' = k
        · rw [if_pos h, if_pos h]
        · rw [if_neg h, if_neg h]
          show dictGet t k' = if p.1 = k' then p.2 else dictGet t k'
          rw [if_neg hp']

theorem dictGet_eq_zero_of_not_mem {l : Entries} {k : Key}
    (h : k ∉ l.map Prod.fst) : dictGet l k = 0 := by
  induction l with
  | nil => rfl
  | cons p t ih =>
    simp only [List.map_cons, List.mem_cons] at h
    push_neg at h
    simp only [dictGet, if_neg (fun hh : p.1 = k => h.1 hh.symm)]
    exact ih h.2

theorem mem_dictSet_sub {l : Entries} {k : Key} {v : Int} {p : Key × Int}
    (h : p ∈ dictSet l k v) : p ∈ l ∨ p = (k, v) := by
  induction l with
  | nil => simpa [dictSet] using h
  | cons q t ih =>
    simp only [dictSet] at h
    by_cases hq : q.1 = k
    · simp only [if_pos hq, List.mem_cons] at h
      rcases h with h | h
      · exact Or.inr h
      · exact Or.inl (List.mem_cons_of_mem _ h)
    · simp only [if_neg hq, List.mem_cons] at h
      rcases h with h | h
      · exact Or.inl (h ▸ List.mem_cons_self _ _)
      · rcases ih h with h' | h'
        · exact Or.inl (List.mem_cons_of_mem _ h')
        · exact Or.inr h'

theorem keys_dictSet_sub {l : Entries} {k : Key} {v : Int} {x : Key}
    (h : x ∈ (dictSet l k v).map Prod.fst) : x ∈ l.map Prod.fst ∨ x = k := by
  simp only [List.mem_map] at h
  rcases h with ⟨p, hp, rfl⟩
  rcases mem_dictSet_sub hp with h' | h'
  · exact Or.inl (List.mem_map_of_mem _ h')
  · exact Or.inr (by rw [h'])

theorem nodup_keys_dictSet {l : Entries} {k : Key} {v : Int}
    (h : (l.map Prod.fst).Nodup) : ((dictSet l k v).map Prod.fst).Nodup := by
  induction l with
  | nil => simp [dictSet]
  | cons p t ih =>
    simp only [List.map_cons, List.nodup_cons] at h
    by_cases hq : p.1 = k
    · simp only [dictSet, if_pos hq, List.map_cons, List.nodup_cons]
      exact ⟨hq ▸ h.1, h.2⟩
    · simp only [dictSet, if_neg hq, List.map_cons, List.nodup_cons]
      refine ⟨fun hmem => ?_, ih h.2⟩
      rcases keys_dictSet_sub hmem with h' | h'
      · exact h.1 h'
      · exact hq h'

theorem dictSet_of_not_mem {l : Entries} {k : Key} {v : Int}
    (h : k ∉ l.map Prod.fst) : dictSet l k v = l ++ [(k, v)] := by
  induction l with
  | nil => rfl
  | cons p t ih =>
    simp only [List.map_cons, List.mem_cons] at h
    push_neg at h
    simp only [dictSet, if_neg (fun hh : p.1 = k => h.1 hh.symm), List.cons_append,
      List.cons.injEq, true_and]
    exact ih h.2

/-! ## `set_element` / `get_element` lemmas -/

namespace SparseMatrix

theorem get_set (m : SparseMatrix) (r c v r' c' : Int) :
    (m.set_element r c v).get_element r' c'
      = if r' = r ∧ c' = c then v else m.get_element r' c' := by
  show dictGet (dictSet m.data (r, c) v) (r', c') = _
  rw [dictGet_dictSet]
  by_cases h : r' = r ∧ c' = c
  · rw [if_pos h, if_pos (by simp [Prod.ext_iff, h])]
  · rw [if_neg h, if_neg (by simpa [Prod.ext_iff] using h)]
    rfl

theorem set_row_count (m : SparseMatrix) (r c v : Int) :
    (m.set_element r c v).row_count = max m.row_count (r + 1) := by
  simp only [set_element]
  split <;> omega

theorem set_col_count (m : SparseMatrix) (r c v : Int) :
    (m.set_element r c v).col_count = max m.col_count (c + 1) := by
  simp only [set_element]
  split <;> omega

theorem set_data (m : SparseMatrix) (r c v : Int) :
    (m.set_element r c v).data = dictSet m.data (r, c) v := rfl

theorem belowDims_set {m : SparseMatrix} (r c v : Int) (h : BelowDims m) :
    BelowDims (m.set_element r c v) := by
  intro p hp
  rw [set_data] at hp
  rw [set_row_count, set_col_count]
  rcases mem_dictSet_sub hp with h' | h'
  · have hb := h p h'
    exact ⟨lt_of_lt_of_le hb.1 (le_max_left _ _), lt_of_lt_of_le hb.2 (le_max_left _ _)⟩
  · rw [h']
    refine ⟨lt_of_lt_of_le ?_ (le_max_right _ _), lt_of_lt_of_le ?_ (le_max_right _ _)⟩
    · show r < r + 1
      omega
    · show c < c + 1
      omega

theorem nodup_set {m : SparseMatrix} (r c v : Int)
    (h : (m.data.map Prod.fst).Nodup) :
    ((m.set_element r c v).data.map Prod.fst).Nodup := by
  rw [set_data]
  exact nodup_keys_dictSet h

end SparseMatrix

/-! ## Lemmas about the loops shared by `add` and `subtract`

All three per-entry loops have the shape
`foldl (fun acc p => acc.set_element p.1.1 p.1.2 (f acc p))`, so the
facts that do not depend on the stored value are proved generically. -/

theorem foldl_set_counts (f : SparseMatrix → Key × Int → Int) :
    ∀ (l : Entries) (m : SparseMatrix),
      (∀ p ∈ l, p.1.1 < m.row_count ∧ p.1.2 < m.col_count) →
      (l.foldl (fun acc p => acc.set_element p.1.1 p.1.2 (f acc p)) m).row_count = m.row_count ∧
      (l.foldl (fun acc p => acc.set_element p.1.1 p.1.2 (f acc p)) m).col_count = m.col_count := by
  intro l
  induction l with
  | nil => exact fun m _ => ⟨rfl, rfl⟩
  | cons p t ih =>
    intro m hb
    rw [List.foldl_cons]
    have hp := hb p (List.mem_cons_self _ _)
    have hrow : (m.set_element p.1.1 p.1.2 (f m p)).row_count = m.row_count := by
      rw [SparseMatrix.set_row_count]
      omega
    have hcol : (m.set_element p.1.1 p.1.2 (f m p)).col_count = m.col_count := by
      rw [SparseMatrix.set_col_count]
      omega
    have ih' := ih (m.set_element p.1.1 p.1.2 (f m p))
      (fun q hq => by rw [hrow, hcol]; exact hb q (List.mem_cons_of_mem _ hq))
    rw [ih'.1, ih'.2, hrow, hcol]
    exact ⟨rfl, rfl⟩

theorem foldl_set_nodup (f : SparseMatrix → Key × Int → Int) :
    ∀ (l : Entries) (m : SparseMatrix), (m.data.map Prod.fst).Nodup →
      ((l.foldl (fun acc p => acc.set_element p.1.1 p.1.2 (f acc p)) m).data.map Prod.fst).Nodup := by
  intro l
  induction l with
  | nil => exact fun m h => h
  | cons p t ih =>
    intro m h
    rw [List.foldl_cons]
    exact ih _ (SparseMatrix.nodup_set _ _ _ h)

theorem foldl_set_keys_sub (f : SparseMatrix → Key × Int → Int) :
    ∀ (l : Entries) (m : SparseMatrix) (x : Key),
      x ∈ (l.foldl (fun acc p => acc.set_element p.1.1 p.1.2 (f acc p)) m).data.map Prod.fst →
      x ∈ m.data.map Prod.fst ∨ x ∈ l.map Prod.fst := by
  intro l
  induction l with
  | nil => exact fun m x h => Or.inl h
  | cons p t ih =>
    intro m x h
    rw [List.foldl_cons] at h
    rcases ih _ x h with h' | h'
    · rw [SparseMatrix.set_data] at h'
      rcases keys_dictSet_sub h' with h'' | h''
      · exact Or.inl h''
      · exact Or.inr (by simp [h''])
    · exact Or.inr (List.mem_cons_of_mem _ h')

theorem foldl_set_belowDims (f : SparseMatrix → Key × Int → Int) :
    ∀ (l : Entries) (m : SparseMatrix), BelowDims m →
      BelowDims (l.foldl (fun acc p => acc.set_element p.1.1 p.1.2 (f acc p)) m) := by
  intro l
  induction l with
  | nil => exact fun m h => h
  | cons p t ih =>
    intro m h
    rw [List.foldl_cons]
    exact ih _ (SparseMatrix.belowDims_set _ _ _ h)

theorem copyLoop_get :
    ∀ (l : Entries) (m : SparseMatrix), (l.map Prod.fst).Nodup → ∀ r c : Int,
      (SparseMatrix.copyLoop l m).get_element r c
        = if (r, c) ∈ l.map Prod.fst then dictGet l (r, c) else m.get_element r c := by
  intro l
  induction l with
  | nil =>
    intro m _ r c
    simp [SparseMatrix.copyLoop]
  | cons p t ih =>
    intro m hnd r c
    simp only [List.map_cons, List.nodup_cons] at hnd
    show (SparseMatrix.copyLoop t (m.set_element p.1.1 p.1.2 p.2)).get_element r c = _
    rw [ih _ hnd.2 r c]
    by_cases hmem : (r, c) ∈ t.map Prod.fst
    · rw [if_pos hmem, if_pos (by simp [hmem])]
      show dictGet t (r, c) = if p.1 = (r, c) then p.2 else dictGet t (r, c)
      rw [if_neg (fun hh : p.1 = (r, c) => hnd.1 (by rw [hh]; exact hmem))]
    · rw [if_neg hmem, SparseMatrix.get_set]
      by_cases hkey : r = p.1.1 ∧ c = p.1.2
      · have hpk : p.1 = (r, c) := by
          rcases hkey with ⟨h1, h2⟩
          rw [h1, h2]
        rw [if_pos hkey, if_pos (by simp [← hpk])]
        show p.2 = if p.1 = (r, c) then p.2 else dictGet t (r, c)
        rw [if_pos hpk]
      · have hnot : (r, c) ∉ (p :: t).map Prod.fst := by
          intro hcmem
          simp only [List.map_cons, List.mem_cons] at hcmem
          rcases hcmem with hcm | hcm
          · exact hkey ⟨congrArg Prod.fst hcm, congrArg Prod.snd hcm⟩
          · exact hmem hcm
        rw [if_neg hkey, if_neg hnot]

theorem addLoop_get :
    ∀ (l : Entries) (m : SparseMatrix), (l.map Prod.fst).Nodup → ∀ r c : Int,
      (SparseMatrix.addLoop l m).get_element r c = m.get_element r c + dictGet l (r, c) := by
  intro l
  induction l with
  | nil =>
    intro m _ r c
    show m.get_element r c = m.get_element r c + 0
    ring
  | cons p t ih =>
    intro m hnd r c
    simp only [List.map_cons, List.nodup_cons] at hnd
    show (SparseMatrix.addLoop t
      (m.set_element p.1.1 p.1.2 (m.get_element p.1.1 p.1.2 + p.2))).get_element r c = _
    rw [ih _ hnd.2 r c, SparseMatrix.get_set]
    show _ = m.get_element r c + if p.1 = (r, c) then p.2 else dictGet t (r, c)
    by_cases hkey : r = p.1.1 ∧ c = p.1.2
    · have hpk : p.1 = (r, c) := by
        rcases hkey with ⟨h1, h2⟩
        rw [h1, h2]
      have hzero : dictGet t (r, c) = 0 :=
        dictGet_eq_zero_of_not_mem (fun hh => hnd.1 (hpk ▸ hh))
      rw [if_pos hkey, if_pos hpk, hzero, hkey.1, hkey.2]
      ring
    · have hpk : p.1 ≠ (r, c) := by
        intro hh
        exact hkey ⟨congrArg Prod.fst hh.symm, congrArg Prod.snd hh.symm⟩
      rw [if_neg hkey, if_neg hpk]

theorem copyLoop_counts (l : Entries) (m : SparseMatrix)
    (h : ∀ p ∈ l, p.1.1 < m.row_count ∧ p.1.2 < m.col_count) :
    (SparseMatrix.copyLoop l m).row_count = m.row_count ∧
      (SparseMatrix.copyLoop l m).col_count = m.col_count :=
  foldl_set_counts (fun _ p => p.2) l m h

theorem addLoop_counts (l : Entries) (m : SparseMatrix)
    (h : ∀ p ∈ l, p.1.1 < m.row_count ∧ p.1.2 < m.col_count) :
    (SparseMatrix.addLoop l m).row_count = m.row_count ∧
      (SparseMatrix.addLoop l m).col_count = m.col_count :=
  foldl_set_counts (fun acc p => acc.get_element p.1.1 p.1.2 + p.2) l m h

theorem copyLoop_nodup (l : Entries) (m : SparseMatrix) (h : (m.data.map Prod.fst).Nodup) :
    ((SparseMatrix.copyLoop l m).data.map Prod.fst).Nodup :=
  foldl_set_nodup (fun _ p => p.2) l m h

theorem addLoop_nodup (l : Entries) (m : SparseMatrix) (h : (m.data.map Prod.fst).Nodup) :
    ((SparseMatrix.addLoop l m).data.map Prod.fst).Nodup :=
  foldl_set_nodup (fun acc p => acc.get_element p.1.1 p.1.2 + p.2) l m h

theorem copyLoop_keys_sub (l : Entries) (m : SparseMatrix) (x : Key)
    (h : x ∈ (SparseMatrix.copyLoop l m).data.map Prod.fst) :
    x ∈ m.data.map Prod.fst ∨ x ∈ l.map Prod.fst :=
  foldl_set_keys_sub (fun _ p => p.2) l m x h

theorem addLoop_keys_sub (l : Entries) (m : SparseMatrix) (x : Key)
    (h : x ∈ (SparseMatrix.addLoop l m).data.map Prod.fst) :
    x ∈ m.data.map Prod.fst ∨ x ∈ l.map Prod.fst :=
  foldl_set_keys_sub (fun acc p => acc.get_element p.1.1 p.1.2 + p.2) l m x h

theorem copyLoop_belowDims (l : Entries) (m : SparseMatrix) (h : BelowDims m) :
    BelowDims (SparseMatrix.copyLoop l m) :=
  foldl_set_belowDims (fun _ p => p.2) l m h

theorem addLoop_belowDims (l : Entries) (m : SparseMatrix) (h : BelowDims m) :
    BelowDims (SparseMatrix.addLoop l m) :=
  foldl_set_belowDims (fun acc p => acc.get_element p.1.1 p.1.2 + p.2) l m h

theorem subLoop_belowDims (l : Entries) (m : SparseMatrix) (h : BelowDims m) :
    BelowDims (SparseMatrix.subLoop l m) :=
  foldl_set_belowDims (fun acc p => acc.get_element p.1.1 p.1.2 - p.2) l m h

/-- Everything claim C1 asserts about a successful `add`, plus the shape and
well-formedness facts of the result needed to chain operations. -/
theorem add_spec (A B : SparseMatrix) (hA : Wf A) (hB : Wf B)
    (hr : A.row_count = B.row_count) (hc : A.col_count = B.col_count) :
    ∃ S, A.add B = .ok S ∧ S.row_count = A.row_count ∧ S.col_count = A.col_count ∧ Wf S ∧
      ∀ r c : Int, S.get_element r c = A.get_element r c + B.get_element r c := by
  have h1 := copyLoop_counts A.data ⟨A.row_count, A.col_count, []⟩
    (fun p hp => ⟨(hA.2 p hp).2.1, (hA.2 p hp).2.2.2⟩)
  have h2 := addLoop_counts B.data (SparseMatrix.copyLoop A.data ⟨A.row_count, A.col_count, []⟩)
    (fun p hp => by
      rw [h1.1, h1.2]
      exact ⟨hr ▸ (hB.2 p hp).2.1, hc ▸ (hB.2 p hp).2.2.2⟩)
  refine ⟨SparseMatrix.addLoop B.data
    (SparseMatrix.copyLoop A.data ⟨A.row_count, A.col_count, []⟩), ?_, ?_, ?_, ?_, ?_⟩
  · rw [SparseMatrix.add, if_neg (by simp [hr, hc])]
  · exact h2.1.trans h1.1
  · exact h2.2.trans h1.2
  · constructor
    · exact addLoop_nodup B.data _ (copyLoop_nodup A.data _ (by simp))
    · intro p hp
      have hx : p.1 ∈ A.data.map Prod.fst ∨ p.1 ∈ B.data.map Prod.fst := by
        rcases addLoop_keys_sub B.data _ p.1 (List.mem_map_of_mem _ hp) with h' | h'
        · rcases copyLoop_keys_sub A.data _ p.1 h' with h'' | h''
          · simp at h''
          · exact Or.inl h''
        · exact Or.inr h'
      rw [h2.1.trans h1.1, h2.2.trans h1.2]
      rcases hx with h' | h'
      · rcases List.mem_map.1 h' with ⟨q, hq, hq'⟩
        have hb := hA.2 q hq
        rw [← hq']
        exact ⟨hb.1, hb.2.1, hb.2.2.1, hb.2.2.2⟩
      · rcases List.mem_map.1 h' with ⟨q, hq, hq'⟩
        have hb := hB.2 q hq
        rw [← hq']
        exact ⟨hb.1, hr ▸ hb.2.1, hb.2.2.1, hc ▸ hb.2.2.2⟩
  · intro r c
    rw [addLoop_get B.data _ hB.1 r c, copyLoop_get A.data _ hA.1 r c]
    by_cases hmem : (r, c) ∈ A.data.map Prod.fst
    · rw [if_pos hmem]
      rfl
    · rw [if_neg hmem]
      show (0 : Int) + _ = _
      rw [show A.get_element r c = 0 from dictGet_eq_zero_of_not_mem hmem]
      rfl

/-! ## Lemmas about the multiplication loops -/

theorem mulInner_succ (other : SparseMatrix) (row col val : Int) (n : Nat) (acc : SparseMatrix) :
    SparseMatrix.mulInner other row col val (n + 1) acc
      = if other.get_element col (n : Int) ≠ 0 then
          (SparseMatrix.mulInner other row col val n acc).set_element row (n : Int)
            ((SparseMatrix.mulInner other row col val n acc).get_element row (n : Int)
              + val * other.get_element col (n : Int))
        else SparseMatrix.mulInner other row col val n acc := by
  simp only [SparseMatrix.mulInner, List.range_succ, List.foldl_append]
  rfl

theorem mulInner_get (other : SparseMatrix) (row col val : Int) :
    ∀ (n : Nat) (acc : SparseMatrix) (r j : Int),
      (SparseMatrix.mulInner other row col val n acc).get_element r j
        = acc.get_element r j
          + (if r = row ∧ 0 ≤ j ∧ j < (n : Int) then val * other.get_element col j else 0) := by
  intro n
  induction n with
  | zero =>
    intro acc r j
    rw [if_neg (by rintro ⟨_, h1, h2⟩; omega)]
    show acc.get_element r j = acc.get_element r j + 0
    ring
  | succ n ih =>
    intro acc r j
    rw [mulInner_succ]
    by_cases hov : other.get_element col (n : Int) = 0
    · rw [if_neg (fun hcon => hcon hov), ih acc r j]
      by_cases h1 : r = row ∧ 0 ≤ j ∧ j < (n : Int)
      · obtain ⟨ha, hb, hc⟩ := h1
        rw [if_pos ⟨ha, hb, hc⟩, if_pos ⟨ha, hb, by omega⟩]
      · by_cases h2 : r = row ∧ 0 ≤ j ∧ j < ((n + 1 : Nat) : Int)
        · obtain ⟨ha, hb, hc⟩ := h2
          have hjeq : j = (n : Int) := by
            have hnot : ¬j < (n : Int) := fun hh => h1 ⟨ha, hb, hh⟩
            omega
          rw [if_neg h1, if_pos ⟨ha, hb, hc⟩, hjeq, hov]
          ring
        · rw [if_neg h1, if_neg h2]
    · rw [if_pos hov, SparseMatrix.get_set]
      by_cases hkey : r = row ∧ j = (n : Int)
      · rw [if_pos hkey, ih acc row (n : Int),
          if_neg (by rintro ⟨_, _, hh⟩; omega),
          if_pos (show r = row ∧ 0 ≤ j ∧ j < ((n + 1 : Nat) : Int) from
            ⟨hkey.1, by rw [hkey.2]; omega, by rw [hkey.2]; omega⟩),
          hkey.1, hkey.2]
        ring
      · rw [if_neg hkey, ih acc r j]
        by_cases h1 : r = row ∧ 0 ≤ j ∧ j < (n : Int)
        · obtain ⟨ha, hb, hc⟩ := h1
          rw [if_pos ⟨ha, hb, hc⟩, if_pos ⟨ha, hb, by omega⟩]
        · rw [if_neg h1, if_neg ?_]
          intro h2
          obtain ⟨ha, hb, hc⟩ := h2
          have hjeq : j = (n : Int) := by
            have hnot : ¬j < (n : Int) := fun hh => h1 ⟨ha, hb, hh⟩
            omega
          exact hkey ⟨ha, hjeq⟩

theorem mulInner_counts (other : SparseMatrix) (row col val : Int) :
    ∀ (n : Nat) (acc : SparseMatrix), row < acc.row_count →
      (∀ k : Nat, k < n → (k : Int) < acc.col_count) →
      (SparseMatrix.mulInner other row col val n acc).row_count = acc.row_count ∧
        (SparseMatrix.mulInner other row col val n acc).col_count = acc.col_count := by
  intro n
  induction n with
  | zero => exact fun acc _ _ => ⟨rfl, rfl⟩
  | succ n ih =>
    intro acc hrow hcol
    have ih' := ih acc hrow (fun k hk => hcol k (by omega))
    rw [mulInner_succ]
    by_cases hov : other.get_element col (n : Int) = 0
    · rw [if_neg (fun hcon => hcon hov)]
      exact ih'
    · rw [if_pos hov]
      rw [SparseMatrix.set_row_count, SparseMatrix.set_col_count, ih'.1, ih'.2]
      constructor
      · exact max_eq_left (by omega)
      · exact max_eq_left (by have := hcol n (by omega); omega)

theorem mulInner_nodup (other : SparseMatrix) (row col val : Int) :
    ∀ (n : Nat) (acc : SparseMatrix), (acc.data.map Prod.fst).Nodup →
      ((SparseMatrix.mulInner other row col val n acc).data.map Prod.fst).Nodup := by
  intro n
  induction n with
  | zero => exact fun acc h => h
  | succ n ih =>
    intro acc h
    rw [mulInner_succ]
    by_cases hov : other.get_element col (n : Int) = 0
    · rw [if_neg (fun hcon => hcon hov)]
      exact ih acc h
    · rw [if_pos hov]
      exact SparseMatrix.nodup_set _ _ _ (ih acc h)

theorem mulInner_keys_sub (other : SparseMatrix) (row col val : Int) :
    ∀ (n : Nat) (acc : SparseMatrix) (x : Key),
      x ∈ (SparseMatrix.mulInner other row col val n acc).data.map Prod.fst →
      x ∈ acc.data.map Prod.fst ∨ (x.1 = row ∧ 0 ≤ x.2 ∧ x.2 < (n : Int)) := by
  intro n
  induction n with
  | zero => exact fun acc x h => Or.inl h
  | succ n ih =>
    intro acc x h
    rw [mulInner_succ] at h
    by_cases hov : other.get_element col (n : Int) = 0
    · rw [if_neg (fun hcon => hcon hov)] at h
      rcases ih acc x h with h' | h'
      · exact Or.inl h'
      · exact Or.inr ⟨h'.1, h'.2.1, by have := h'.2.2; omega⟩
    · rw [if_pos hov] at h
      rw [SparseMatrix.set_data] at h
      rcases keys_dictSet_sub h with h' | h'
      · rcases ih acc x h' with h'' | h''
        · exact Or.inl h''
        · exact Or.inr ⟨h''.1, h''.2.1, by have := h''.2.2; omega⟩
      · refine Or.inr ⟨congrArg Prod.fst h', ?_, ?_⟩
        · rw [show x.2 = (n : Int) from congrArg Prod.snd h']
          omega
        · rw [show x.2 = (n : Int) from congrArg Prod.snd h']
          omega

theorem mulInner_belowDims (other : SparseMatrix) (row col val : Int) :
    ∀ (n : Nat) (acc : SparseMatrix), BelowDims acc →
      BelowDims (SparseMatrix.mulInner other row col val n acc) := by
  intro n
  induction n with
  | zero => exact fun acc h => h
  | succ n ih =>
    intro acc h
    rw [mulInner_succ]
    by_cases hov : other.get_element col (n : Int) = 0
    · rw [if_neg (fun hcon => hcon hov)]
      exact ih acc h
    · rw [if_pos hov]
      exact SparseMatrix.belowDims_set _ _ _ (ih acc h)

theorem rowContrib_cons (other : SparseMatrix) (p : Key × Int) (t : Entries) (r j : Int) :
    rowContrib other (p :: t) r j
      = (if p.1.1 = r then p.2 * other.get_element p.1.2 j else 0) + rowContrib other t r j := by
  by_cases h : p.1.1 = r <;> simp [rowContrib, List.filter_cons, h]

theorem mulLoop_get (other : SparseMatrix) :
    ∀ (l : Entries) (n : Nat) (m : SparseMatrix) (r j : Int),
      (SparseMatrix.mulLoop other l n m).get_element r j
        = m.get_element r j
          + (if 0 ≤ j ∧ j < (n : Int) then rowContrib other l r j else 0) := by
  intro l
  induction l with
  | nil =>
    intro n m r j
    show m.get_element r j = m.get_element r j + _
    rw [show rowContrib other [] r j = 0 from rfl, ite_self]
    ring
  | cons p t ih =>
    intro n m r j
    show (SparseMatrix.mulLoop other t n (SparseMatrix.mulInner other p.1.1 p.1.2 p.2 n m)).get_element r j = _
    rw [ih n _ r j, mulInner_get other p.1.1 p.1.2 p.2 n m r j, rowContrib_cons]
    by_cases h0 : 0 ≤ j ∧ j < (n : Int)
    · rw [if_pos h0, if_pos h0]
      by_cases hr' : p.1.1 = r
      · rw [if_pos ⟨hr'.symm, h0.1, h0.2⟩, if_pos hr']
        ring
      · rw [if_neg (fun hh => hr' hh.1.symm), if_neg hr']
        ring
    · rw [if_neg h0, if_neg h0, if_neg (fun hh => h0 ⟨hh.2.1, hh.2.2⟩)]
      ring

theorem rowContrib_eq_sum (other : SparseMatrix) (C r j : Int) :
    ∀ l : Entries, (l.map Prod.fst).Nodup → (∀ p ∈ l, 0 ≤ p.1.2 ∧ p.1.2 < C) →
      rowContrib other l r j
        = ∑ k ∈ Finset.range C.toNat, dictGet l (r, (k : Int)) * other.get_element (k : Int) j := by
  intro l
  induction l with
  | nil =>
    intro _ _
    simp [rowContrib, dictGet]
  | cons p t ih =>
    intro hnd hb
    simp only [List.map_cons, List.nodup_cons] at hnd
    have hbp := hb p (List.mem_cons_self _ _)
    rw [rowContrib_cons, ih hnd.2 (fun q hq => hb q (List.mem_cons_of_mem _ hq))]
    by_cases hr' : p.1.1 = r
    · have hpk : p.1 = (r, p.1.2) := by rw [← hr']
      have hk0' : ((p.1.2.toNat : Nat) : Int) = p.1.2 := Int.toNat_of_nonneg hbp.1
      have hk0mem : p.1.2.toNat ∈ Finset.range C.toNat := by
        rw [Finset.mem_range]
        omega
      have hfk0 : dictGet (p :: t) (r, ((p.1.2.toNat : Nat) : Int))
            * other.get_element ((p.1.2.toNat : Nat) : Int) j
          = p.2 * other.get_element p.1.2 j := by
        rw [hk0']
        show (if p.1 = (r, p.1.2) then p.2 else dictGet t (r, p.1.2)) * _ = _
        rw [if_pos hpk]
      have hgk0 : dictGet t (r, ((p.1.2.toNat : Nat) : Int))
            * other.get_element ((p.1.2.toNat : Nat) : Int) j = 0 := by
        rw [hk0', dictGet_eq_zero_of_not_mem (fun hmem => hnd.1 (hpk ▸ hmem)), zero_mul]
      have herase :
          ∑ k ∈ (Finset.range C.toNat).erase p.1.2.toNat,
              dictGet (p :: t) (r, (k : Int)) * other.get_element (k : Int) j
            = ∑ k ∈ (Finset.range C.toNat).erase p.1.2.toNat,
              dictGet t (r, (k : Int)) * other.get_element (k : Int) j := by
        refine Finset.sum_congr rfl (fun k hk => ?_)
        have hkne : k ≠ p.1.2.toNat := Finset.ne_of_mem_erase hk
        show (if p.1 = (r, (k : Int)) then p.2 else dictGet t (r, (k : Int))) * _ = _
        rw [if_neg (fun hh => hkne (by
          have h2 : p.1.2 = (k : Int) := congrArg Prod.snd hh
          omega))]
      rw [if_pos hr',
        ← Finset.add_sum_erase _ (fun (k : Nat) => dictGet (p :: t) (r, (k : Int))
          * other.get_element (k : Int) j) hk0mem,
        ← Finset.add_sum_erase _ (fun (k : Nat) => dictGet t (r, (k : Int))
          * other.get_element (k : Int) j) hk0mem,
        hfk0, hgk0, herase]
      ring
    · rw [if_neg hr', zero_add]
      refine (Finset.sum_congr rfl (fun k _ => ?_)).symm
      show (if p.1 = (r, (k : Int)) then p.2 else dictGet t (r, (k : Int))) * _ = _
      rw [if_neg (fun hh => hr' (congrArg Prod.fst hh))]

theorem mulLoop_counts (other : SparseMatrix) :
    ∀ (l : Entries) (n : Nat) (m : SparseMatrix),
      (∀ p ∈ l, p.1.1 < m.row_count) →
      (∀ k : Nat, k < n → (k : Int) < m.col_count) →
      (SparseMatrix.mulLoop other l n m).row_count = m.row_count ∧
        (SparseMatrix.mulLoop other l n m).col_count = m.col_count := by
  intro l
  induction l with
  | nil => exact fun n m _ _ => ⟨rfl, rfl⟩
  | cons p t ih =>
    intro n m hrow hcol
    have h1 := mulInner_counts other p.1.1 p.1.2 p.2 n m
      (hrow p (List.mem_cons_self _ _)) hcol
    show (SparseMatrix.mulLoop other t n (SparseMatrix.mulInner other p.1.1 p.1.2 p.2 n m)).row_count = _ ∧ _
    have ih' := ih n (SparseMatrix.mulInner other p.1.1 p.1.2 p.2 n m)
      (fun q hq => by rw [h1.1]; exact hrow q (List.mem_cons_of_mem _ hq))
      (fun k hk => by rw [h1.2]; exact hcol k hk)
    exact ⟨ih'.1.trans h1.1, ih'.2.trans h1.2⟩

theorem mulLoop_nodup (other : SparseMatrix) :
    ∀ (l : Entries) (n : Nat) (m : SparseMatrix), (m.data.map Prod.fst).Nodup →
      ((SparseMatrix.mulLoop other l n m).data.map Prod.fst).Nodup := by
  intro l
  induction l with
  | nil => exact fun n m h => h
  | cons p t ih =>
    intro n m h
    exact ih n _ (mulInner_nodup other p.1.1 p.1.2 p.2 n m h)

theorem mulLoop_keys_sub (other : SparseMatrix) :
    ∀ (l : Entries) (n : Nat) (m : SparseMatrix) (x : Key),
      x ∈ (SparseMatrix.mulLoop other l n m).data.map Prod.fst →
      x ∈ m.data.map Prod.fst ∨
        ((∃ p ∈ l, x.1 = p.1.1) ∧ 0 ≤ x.2 ∧ x.2 < (n : Int)) := by
  intro l
  induction l with
  | nil => exact fun n m x h => Or.inl h
  | cons p t ih =>
    intro n m x h
    rcases ih n _ x h with h' | h'
    · rcases mulInner_keys_sub other p.1.1 p.1.2 p.2 n m x h' with h'' | h''
      · exact Or.inl h''
      · exact Or.inr ⟨⟨p, List.mem_cons_self _ _, h''.1⟩, h''.2.1, h''.2.2⟩
    · rcases h' with ⟨⟨q, hq, hq'⟩, hb⟩
      exact Or.inr ⟨⟨q, List.mem_cons_of_mem _ hq, hq'⟩, hb⟩

theorem mulLoop_belowDims (other : SparseMatrix) :
    ∀ (l : Entries) (n : Nat) (m : SparseMatrix), BelowDims m →
      BelowDims (SparseMatrix.mulLoop other l n m) := by
  intro l
  induction l with
  | nil => exact fun n m h => h
  | cons p t ih =>
    intro n m h
    exact ih n _ (mulInner_belowDims other p.1.1 p.1.2 p.2 n m h)

/-- Everything claim C2 asserts about a successful `multiply`, plus shape
and well-formedness facts of the result. -/
theorem multiply_spec (A B : SparseMatrix) (hA : Wf A) (hB : Wf B)
    (hd : A.col_count = B.row_count) :
    ∃ P, A.multiply B = .ok P ∧ P.row_count = A.row_count ∧ P.col_count = B.col_count ∧ Wf P ∧
      ∀ r j : Int, 0 ≤ j → j < B.col_count →
        P.get_element r j
          = ∑ k ∈ Finset.range A.col_count.toNat,
              A.get_element r (k : Int) * B.get_element (k : Int) j := by
  have hcounts := mulLoop_counts B A.data B.col_count.toNat ⟨A.row_count, B.col_count, []⟩
    (fun p hp => (hA.2 p hp).2.1) (fun k hk => by show (k : Int) < B.col_count; omega)
  refine ⟨SparseMatrix.mulLoop B A.data B.col_count.toNat ⟨A.row_count, B.col_count, []⟩,
    ?_, ?_, ?_, ?_, ?_⟩
  · rw [SparseMatrix.multiply, if_neg (by simp [hd])]
  · exact hcounts.1
  · exact hcounts.2
  · constructor
    · exact mulLoop_nodup B A.data B.col_count.toNat _ (by simp)
    · intro p hp
      rcases mulLoop_keys_sub B A.data B.col_count.toNat _ p.1
          (List.mem_map_of_mem _ hp) with h' | h'
      · simp at h'
      · rcases h' with ⟨⟨q, hq, hq'⟩, hb1, hb2⟩
        have hbq := hA.2 q hq
        rw [hcounts.1, hcounts.2]
        refine ⟨by rw [hq']; exact hbq.1, by rw [hq']; exact hbq.2.1, hb1, ?_⟩
        show p.1.2 < B.col_count
        omega
  · intro r j hj0 hj
    rw [mulLoop_get B A.data B.col_count.toNat _ r j,
      if_pos ⟨hj0, by show j < ((B.col_count.toNat : Nat) : Int); omega⟩,
      rowContrib_eq_sum B A.col_count r j A.data hA.1
        (fun p hp => ⟨(hA.2 p hp).2.2.1, (hA.2 p hp).2.2.2⟩)]
    show (0 : Int) + _ = _
    rw [zero_add]
    rfl

/-! ## Lemmas about decimal printing and the character-level parsers -/

theorem digit_facts : ∀ d : Nat, d < 10 →
    pySpace (Char.ofNat (48 + d)) = false ∧ Char.ofNat (48 + d) ≠ '-' ∧
      (Char.ofNat (48 + d)).isDigit = true ∧ (Char.ofNat (48 + d)).toNat = 48 + d := by
  decide

theorem digitsVal_append_single (xs : List Char) (c : Char) :
    digitsVal (xs ++ [c]) = 10 * digitsVal xs + (c.toNat - 48) := by
  unfold digitsVal
  rw [List.foldl_append]
  rfl

theorem natToDigitsAux_spec : ∀ fuel n : Nat, n < fuel →
    (∀ c ∈ natToDigitsAux fuel n, ∃ d, d < 10 ∧ c = Char.ofNat (48 + d)) ∧
      natToDigitsAux fuel n ≠ [] ∧ digitsVal (natToDigitsAux fuel n) = n := by
  intro fuel
  induction fuel with
  | zero =>
    intro n h
    omega
  | succ fuel ih =>
    intro n h
    have hunf : natToDigitsAux (fuel + 1) n
        = if n < 10 then [Char.ofNat (48 + n)]
          else natToDigitsAux fuel (n / 10) ++ [Char.ofNat (48 + n % 10)] := rfl
    by_cases h10 : n < 10
    · rw [hunf, if_pos h10]
      refine ⟨?_, by simp, ?_⟩
      · intro c hc
        rw [List.mem_singleton] at hc
        exact ⟨n, h10, hc⟩
      · have hds := digitsVal_append_single [] (Char.ofNat (48 + n))
        rw [List.nil_append] at hds
        rw [hds, (digit_facts n h10).2.2.2]
        show 10 * 0 + (48 + n - 48) = n
        omega
    · rw [hunf, if_neg h10]
      push_neg at h10
      have hrec := ih (n / 10) (by omega)
      refine ⟨?_, by simp [hrec.2.1], ?_⟩
      · intro c hc
        rcases List.mem_append.1 hc with hc | hc
        · exact hrec.1 c hc
        · rw [List.mem_singleton] at hc
          exact ⟨n % 10, by omega, hc⟩
      · rw [digitsVal_append_single, hrec.2.2, (digit_facts (n % 10) (by omega)).2.2.2]
        omega

theorem natToDigits_spec (n : Nat) :
    (∀ c ∈ natToDigits n, ∃ d, d < 10 ∧ c = Char.ofNat (48 + d)) ∧
      natToDigits n ≠ [] ∧ digitsVal (natToDigits n) = n :=
  natToDigitsAux_spec (n + 1) n (by omega)

theorem natToDigits_isDigit (n : Nat) : ∀ c ∈ natToDigits n, c.isDigit = true := by
  intro c hc
  rcases (natToDigits_spec n).1 c hc with ⟨d, hd, rfl⟩
  exact (digit_facts d hd).2.2.1

theorem natToDigits_not_space (n : Nat) : ∀ c ∈ natToDigits n, pySpace c = false := by
  intro c hc
  rcases (natToDigits_spec n).1 c hc with ⟨d, hd, rfl⟩
  exact (digit_facts d hd).1

theorem natToDigits_ne_minus (n : Nat) : ∀ c ∈ natToDigits n, c ≠ '-' := by
  intro c hc
  rcases (natToDigits_spec n).1 c hc with ⟨d, hd, rfl⟩
  exact (digit_facts d hd).2.1

theorem takeWhile_append_all {p : Char → Bool} :
    ∀ {a : List Char} (b : List Char), (∀ c ∈ a, p c = true) → b.takeWhile p = [] →
      (a ++ b).takeWhile p = a := by
  intro a
  induction a with
  | nil =>
    intro b _ hb
    rw [List.nil_append, hb]
  | cons x t ih =>
    intro b h hb
    rw [List.cons_append, List.takeWhile_cons, if_pos (h x (List.mem_cons_self _ _)),
      ih b (fun c hc => h c (List.mem_cons_of_mem _ hc)) hb]

theorem dropWhile_append_all {p : Char → Bool} :
    ∀ {a : List Char} (b : List Char), (∀ c ∈ a, p c = true) → b.takeWhile p = [] →
      (a ++ b).dropWhile p = b := by
  intro a
  induction a with
  | nil =>
    intro b _ hb
    have hsplit := List.takeWhile_append_dropWhile p b
    rw [hb, List.nil_append] at hsplit
    rw [List.nil_append, hsplit]
  | cons x t ih =>
    intro b h hb
    rw [List.cons_append, List.dropWhile_cons, if_pos (h x (List.mem_cons_self _ _))]
    exact ih b (fun c hc => h c (List.mem_cons_of_mem _ hc)) hb

theorem parseNat_digits {ds : List Char} (rest : List Char)
    (hds : ∀ c ∈ ds, c.isDigit = true) (hne : ds ≠ [])
    (hrest : rest.takeWhile Char.isDigit = []) :
    parseNat (ds ++ rest) = some (digitsVal ds, rest) := by
  unfold parseNat
  rw [takeWhile_append_all rest hds hrest, dropWhile_append_all rest hds hrest, if_neg hne]

theorem parseNat_natToDigits (n : Nat) (rest : List Char)
    (hrest : rest.takeWhile Char.isDigit = []) :
    parseNat (natToDigits n ++ rest) = some (n, rest) := by
  rw [parseNat_digits rest (natToDigits_isDigit n) (natToDigits_spec n).2.1 hrest,
    (natToDigits_spec n).2.2]

theorem dropWhile_cons_neg {p : Char → Bool} {x : Char} {t : List Char} (h : p x = false) :
    (x :: t).dropWhile p = x :: t := by
  rw [List.dropWhile_cons, h]
  simp

theorem dropWhile_all_neg {p : Char → Bool} : ∀ {l : List Char}, (∀ c ∈ l, p c = false) →
    l.dropWhile p = l
  | [], _ => rfl
  | x :: _, h => dropWhile_cons_neg (h x (List.mem_cons_self _ _))

theorem strip_eq_self {l : List Char} (h1 : l.dropWhile pySpace = l)
    (h2 : l.reverse.dropWhile pySpace = l.reverse) : strip l = l := by
  unfold strip
  rw [h1, h2, List.reverse_reverse]

theorem strip_all_not_space {l : List Char} (h : ∀ c ∈ l, pySpace c = false) : strip l = l :=
  strip_eq_self (dropWhile_all_neg h) (dropWhile_all_neg (fun c hc => h c (List.mem_reverse.1 hc)))

theorem strip_of_ends (x y : Char) (hx : pySpace x = false) (hy : pySpace y = false)
    (mid : List Char) : strip (x :: (mid ++ [y])) = x :: (mid ++ [y]) := by
  apply strip_eq_self
  · exact dropWhile_cons_neg hx
  · rw [show (x :: (mid ++ [y])).reverse = y :: (mid.reverse ++ [x]) by simp]
    exact dropWhile_cons_neg hy

/-! ## Parsing back what the serializer prints -/

theorem intRepr_nonneg {i : Int} (h : 0 ≤ i) : intRepr i = natToDigits i.toNat := by
  unfold intRepr
  rw [if_neg (not_lt.2 h)]

theorem intRepr_not_space (i : Int) : ∀ c ∈ intRepr i, pySpace c = false := by
  intro c hc
  unfold intRepr at hc
  by_cases hi : i < 0
  · rw [if_pos hi] at hc
    rcases List.mem_cons.1 hc with rfl | hc
    · decide
    · exact natToDigits_not_space _ c hc
  · rw [if_neg hi] at hc
    exact natToDigits_not_space _ c hc

theorem intRepr_ne_nil (i : Int) : intRepr i ≠ [] := by
  unfold intRepr
  by_cases hi : i < 0
  · rw [if_pos hi]
    simp
  · rw [if_neg hi]
    exact (natToDigits_spec _).2.1

theorem takeWhile_digit_false {x : Char} (hx : x.isDigit = false) (l : List Char) :
    (x :: l).takeWhile Char.isDigit = [] := by
  rw [List.takeWhile_cons, hx]
  simp

theorem dropWhile_space_intRepr (v : Int) (rest : List Char) :
    (intRepr v ++ rest).dropWhile pySpace = intRepr v ++ rest := by
  cases hnd : intRepr v with
  | nil => exact absurd hnd (intRepr_ne_nil v)
  | cons c cs =>
    have hc : c ∈ intRepr v := by
      rw [hnd]
      exact List.mem_cons_self _ _
    rw [List.cons_append, dropWhile_cons_neg (intRepr_not_space v c hc)]

theorem parseRows_cons (rest : List Char) :
    parseRows ('r' :: 'o' :: 'w' :: 's' :: '=' :: rest) = (parseNat rest).map (fun p => p.1) :=
  rfl

theorem parseCols_cons (rest : List Char) :
    parseCols ('c' :: 'o' :: 'l' :: 's' :: '=' :: rest) = (parseNat rest).map (fun p => p.1) :=
  rfl

theorem parseRows_serialized (R : Int) (hR : 0 ≤ R) :
    parseRows (strip ('r' :: 'o' :: 'w' :: 's' :: '=' :: intRepr R)) = some R.toNat := by
  rw [strip_all_not_space ?hns, parseRows_cons, intRepr_nonneg hR]
  case hns =>
    intro c hc
    simp only [List.mem_cons] at hc
    rcases hc with rfl | rfl | rfl | rfl | rfl | hc
    · decide
    · decide
    · decide
    · decide
    · decide
    · exact intRepr_not_space R c hc
  have hpn := parseNat_natToDigits R.toNat [] rfl
  rw [List.append_nil] at hpn
  rw [hpn]
  rfl

theorem parseCols_serialized (C : Int) (hC : 0 ≤ C) :
    parseCols (strip ('c' :: 'o' :: 'l' :: 's' :: '=' :: intRepr C)) = some C.toNat := by
  rw [strip_all_not_space ?hns, parseCols_cons, intRepr_nonneg hC]
  case hns =>
    intro c hc
    simp only [List.mem_cons] at hc
    rcases hc with rfl | rfl | rfl | rfl | rfl | hc
    · decide
    · decide
    · decide
    · decide
    · decide
    · exact intRepr_not_space C c hc
  have hpn := parseNat_natToDigits C.toNat [] rfl
  rw [List.append_nil] at hpn
  rw [hpn]
  rfl

theorem parseSigned_cons (x : Char) (t : List Char) :
    parseSigned (x :: t) = if x = '-' then (parseNat t).map (fun p => (-(p.1 : Int), p.2))
      else (parseNat (x :: t)).map (fun p => ((p.1 : Int), p.2)) :=
  rfl

theorem parseSigned_intRepr (v : Int) (rest : List Char)
    (hrest : rest.takeWhile Char.isDigit = []) :
    parseSigned (intRepr v ++ rest) = some (v, rest) := by
  by_cases hv : v < 0
  · rw [intRepr, if_pos hv, List.cons_append, parseSigned_cons, if_pos rfl,
      parseNat_natToDigits _ rest hrest, Option.map_some']
    have hcast : (((-v).toNat : Nat) : Int) = -v := Int.toNat_of_nonneg (by omega)
    rw [show (-(((-v).toNat : Nat) : Int), rest) = (v, rest) by rw [hcast, neg_neg]]
  · push_neg at hv
    rw [intRepr, if_neg (not_lt.2 hv)]
    cases hnd : natToDigits v.toNat with
    | nil => exact absurd hnd (natToDigits_spec _).2.1
    | cons c cs =>
      have hc : c ∈ natToDigits v.toNat := by
        rw [hnd]
        exact List.mem_cons_self _ _
      rw [List.cons_append, parseSigned_cons, if_neg (natToDigits_ne_minus _ c hc),
        ← List.cons_append, ← hnd, parseNat_natToDigits _ rest hrest, Option.map_some']
      rw [show ((v.toNat : Int), rest) = (v, rest) by rw [Int.toNat_of_nonneg hv]]

theorem expectChar_cons_self (c : Char) (t : List Char) : expectChar c (c :: t) = some t := by
  show (if c = c then some t else none) = some t
  rw [if_pos rfl]

theorem parseEntry_entryLine (p : Key × Int) (h1 : 0 ≤ p.1.1) (h2 : 0 ≤ p.1.2) :
    parseEntry (entryLine p) = some (p.1.1.toNat, p.1.2.toNat, p.2) := by
  have e1 : parseNat (intRepr p.1.1
        ++ ',' :: ' ' :: (intRepr p.1.2 ++ ',' :: ' ' :: (intRepr p.2 ++ [')'])))
      = some (p.1.1.toNat,
          ',' :: ' ' :: (intRepr p.1.2 ++ ',' :: ' ' :: (intRepr p.2 ++ [')']))) := by
    rw [intRepr_nonneg h1]
    exact parseNat_natToDigits _ _ (takeWhile_digit_false (by decide) _)
  have e3 : (' ' :: (intRepr p.1.2 ++ ',' :: ' ' :: (intRepr p.2 ++ [')']))).dropWhile pySpace
      = intRepr p.1.2 ++ ',' :: ' ' :: (intRepr p.2 ++ [')']) := by
    rw [List.dropWhile_cons, if_pos (by decide)]
    exact dropWhile_space_intRepr _ _
  have e4 : parseNat (intRepr p.1.2 ++ ',' :: ' ' :: (intRepr p.2 ++ [')']))
      = some (p.1.2.toNat, ',' :: ' ' :: (intRepr p.2 ++ [')'])) := by
    rw [intRepr_nonneg h2]
    exact parseNat_natToDigits _ _ (takeWhile_digit_false (by decide) _)
  have e6 : (' ' :: (intRepr p.2 ++ [')'])).dropWhile pySpace = intRepr p.2 ++ [')'] := by
    rw [List.dropWhile_cons, if_pos (by decide)]
    exact dropWhile_space_intRepr _ _
  have e7 : parseSigned (intRepr p.2 ++ [')']) = some (p.2, [')']) :=
    parseSigned_intRepr p.2 [')'] (takeWhile_digit_false (by decide) _)
  rw [show entryLine p = '(' :: (intRepr p.1.1
      ++ ',' :: ' ' :: (intRepr p.1.2 ++ ',' :: ' ' :: (intRepr p.2 ++ [')'])))
      by simp [entryLine],
    parseEntry, expectChar_cons_self, Option.some_bind, e1, Option.some_bind,
    expectChar_cons_self, Option.some_bind, e3, e4, Option.some_bind,
    expectChar_cons_self, Option.some_bind, e6, e7, Option.some_bind,
    expectChar_cons_self, Option.map_some']

theorem strip_entryLine (p : Key × Int) : strip (entryLine p) = entryLine p := by
  have hshape : entryLine p
      = '(' :: ((intRepr p.1.1 ++ ',' :: ' ' :: intRepr p.1.2 ++ ',' :: ' ' :: intRepr p.2)
        ++ [')']) := by
    simp [entryLine]
  rw [hshape]
  exact strip_of_ends '(' ')' (by decide) (by decide) _

/-! ## Lemmas about the entry loop of the loader -/

theorem loadEntries_nil (m : SparseMatrix) (idx : Nat) : loadEntries m [] idx = .ok m := rfl

theorem loadEntries_cons_empty {l : List Char} (m : SparseMatrix) (rest : List (List Char))
    (idx : Nat) (hs : strip l = []) :
    loadEntries m (l :: rest) idx = loadEntries m rest (idx + 1) := by
  simp only [loadEntries]
  rw [if_pos hs]

theorem loadEntries_cons_bad {l : List Char} (m : SparseMatrix) (rest : List (List Char))
    (idx : Nat) (hs : strip l ≠ []) (hp : parseEntry (strip l) = none) :
    loadEntries m (l :: rest) idx = .error (.malformedEntry (idx + 1) (strip l)) := by
  simp only [loadEntries]
  rw [if_neg hs, hp]

theorem loadEntries_cons_good {l : List Char} (m : SparseMatrix) (rest : List (List Char))
    (idx : Nat) {r c : Nat} {v : Int} (hs : strip l ≠ [])
    (hp : parseEntry (strip l) = some (r, c, v)) :
    loadEntries m (l :: rest) idx
      = loadEntries (m.set_element (r : Int) (c : Int) v) rest (idx + 1) := by
  simp only [loadEntries]
  rw [if_neg hs, hp]

theorem inv_set {m : SparseMatrix} {r c : Int} (v : Int) (h : Inv m) (hr : 0 ≤ r)
    (hc : 0 ≤ c) : Inv (m.set_element r c v) := by
  refine ⟨?_, ?_, SparseMatrix.nodup_set r c v h.2.2.1, ?_⟩
  · rw [SparseMatrix.set_row_count]
    exact le_trans h.1 (le_max_left _ _)
  · rw [SparseMatrix.set_col_count]
    exact le_trans h.2.1 (le_max_left _ _)
  · intro p hp
    rw [SparseMatrix.set_data] at hp
    rw [SparseMatrix.set_row_count, SparseMatrix.set_col_count]
    rcases mem_dictSet_sub hp with h' | h'
    · have hb := h.2.2.2 p h'
      exact ⟨hb.1, lt_of_lt_of_le hb.2.1 (le_max_left _ _), hb.2.2.1,
        lt_of_lt_of_le hb.2.2.2 (le_max_left _ _)⟩
    · rw [h']
      refine ⟨hr, lt_of_lt_of_le ?_ (le_max_right _ _), hc,
        lt_of_lt_of_le ?_ (le_max_right _ _)⟩
      · show r < r + 1
        omega
      · show c < c + 1
        omega

theorem loadEntries_inv :
    ∀ (body : List (List Char)) (m : SparseMatrix) (idx : Nat) {m' : SparseMatrix},
      Inv m → loadEntries m body idx = .ok m' → Inv m' := by
  intro body
  induction body with
  | nil =>
    intro m idx m' hm h
    rw [loadEntries_nil] at h
    exact (Except.ok.inj h) ▸ hm
  | cons l rest ih =>
    intro m idx m' hm h
    by_cases hs : strip l = []
    · rw [loadEntries_cons_empty m rest idx hs] at h
      exact ih m (idx + 1) hm h
    · cases hp : parseEntry (strip l) with
      | none =>
        rw [loadEntries_cons_bad m rest idx hs hp] at h
        exact Except.noConfusion h
      | some trip =>
        obtain ⟨r, c, v⟩ := trip
        rw [loadEntries_cons_good m rest idx hs hp] at h
        exact ih _ (idx + 1) (inv_set v hm (Int.natCast_nonneg r) (Int.natCast_nonneg c)) h

theorem from_lines_match (l0 l1 : List Char) (body : List (List Char)) :
    from_lines (l0 :: l1 :: body)
      = match parseRows (strip l0), parseCols (strip l1) with
        | some r, some c => loadEntries ⟨(r : Int), (c : Int), []⟩ body 2
        | _, _ => .error .malformedHeader := rfl

theorem from_lines_ok_arm (l0 l1 : List Char) (body : List (List Char)) {r c : Nat}
    (hr : parseRows (strip l0) = some r) (hc : parseCols (strip l1) = some c) :
    from_lines (l0 :: l1 :: body) = loadEntries ⟨(r : Int), (c : Int), []⟩ body 2 := by
  rw [from_lines_match, hr, hc]

theorem from_lines_inv : ∀ {ls : List (List Char)} {m : SparseMatrix},
    from_lines ls = .ok m → Inv m := by
  intro ls m h
  match ls with
  | [] => exact Except.noConfusion h
  | [l0] => exact Except.noConfusion h
  | l0 :: l1 :: body =>
    rw [from_lines_match] at h
    cases hr : parseRows (strip l0) with
    | none =>
      rw [hr] at h
      exact Except.noConfusion h
    | some r =>
      cases hc : parseCols (strip l1) with
      | none =>
        rw [hr, hc] at h
        exact Except.noConfusion h
      | some c =>
        rw [hr, hc] at h
        refine loadEntries_inv body _ 2 ⟨Int.natCast_nonneg r, Int.natCast_nonneg c, ?_, ?_⟩ h
        · simp
        · intro p hp
          exact absurd hp (List.not_mem_nil p)

/-! ## The serializer round-trips through the loader -/

theorem loadEntries_entryLines :
    ∀ (l : Entries) (acc : SparseMatrix) (idx : Nat),
      (∀ p ∈ l, 0 ≤ p.1.1 ∧ p.1.1 < acc.row_count ∧ 0 ≤ p.1.2 ∧ p.1.2 < acc.col_count) →
      (∀ p ∈ l, p.1 ∉ acc.data.map Prod.fst) →
      (l.map Prod.fst).Nodup →
      loadEntries acc (l.map entryLine) idx = .ok ⟨acc.row_count, acc.col_count, acc.data ++ l⟩ := by
  intro l
  induction l with
  | nil =>
    intro acc idx _ _ _
    rw [List.map_nil, loadEntries_nil, List.append_nil]
  | cons p t ih =>
    intro acc idx hb hnot hnd
    simp only [List.map_cons, List.nodup_cons] at hnd
    have hbp := hb p (List.mem_cons_self _ _)
    have hne : entryLine p ≠ [] := by simp [entryLine]
    rw [List.map_cons,
      loadEntries_cons_good acc (t.map entryLine) idx
        (by rw [strip_entryLine]; exact hne)
        (by rw [strip_entryLine]; exact parseEntry_entryLine p hbp.1 hbp.2.2.1)]
    have hset : acc.set_element ((p.1.1.toNat : Nat) : Int) ((p.1.2.toNat : Nat) : Int) p.2
        = ⟨acc.row_count, acc.col_count, acc.data ++ [p]⟩ := by
      rw [Int.toNat_of_nonneg hbp.1, Int.toNat_of_nonneg hbp.2.2.1]
      show SparseMatrix.mk (if p.1.1 ≥ acc.row_count then p.1.1 + 1 else acc.row_count)
        (if p.1.2 ≥ acc.col_count then p.1.2 + 1 else acc.col_count)
        (dictSet acc.data (p.1.1, p.1.2) p.2) = _
      rw [if_neg (not_le.2 hbp.2.1), if_neg (not_le.2 hbp.2.2.2),
        show ((p.1.1, p.1.2) : Key) = p.1 from rfl,
        dictSet_of_not_mem (hnot p (List.mem_cons_self _ _)),
        show ((p.1, p.2) : Key × Int) = p from rfl]
    rw [hset]
    have ih' := ih ⟨acc.row_count, acc.col_count, acc.data ++ [p]⟩ (idx + 1)
      (fun q hq => hb q (List.mem_cons_of_mem _ hq))
      (fun q hq hmem => by
        rw [show (SparseMatrix.mk acc.row_count acc.col_count (acc.data ++ [p])).data
            = acc.data ++ [p] from rfl, List.map_append, List.mem_append] at hmem
        rcases hmem with hmem | hmem
        · exact hnot q (List.mem_cons_of_mem _ hq) hmem
        · rw [List.map_singleton, List.mem_singleton] at hmem
          exact hnd.1 (hmem ▸ List.mem_map_of_mem Prod.fst hq))
      hnd.2
    rw [ih', List.append_assoc, List.singleton_append]

theorem from_lines_toLines {m : SparseMatrix} (h : Inv m) : from_lines (toLines m) = .ok m := by
  show from_lines (('r' :: 'o' :: 'w' :: 's' :: '=' :: intRepr m.row_count)
    :: ('c' :: 'o' :: 'l' :: 's' :: '=' :: intRepr m.col_count)
    :: m.data.map entryLine) = .ok m
  rw [from_lines_ok_arm _ _ _ (parseRows_serialized m.row_count h.1)
      (parseCols_serialized m.col_count h.2.1),
    show ((m.row_count.toNat : Nat) : Int) = m.row_count from Int.toNat_of_nonneg h.1,
    show ((m.col_count.toNat : Nat) : Int) = m.col_count from Int.toNat_of_nonneg h.2.1,
    loadEntries_entryLines m.data ⟨m.row_count, m.col_count, []⟩ 2
      (fun p hp => h.2.2.2 p hp)
      (fun p _ hmem => absurd hmem (List.not_mem_nil _))
      h.2.2.1,
    List.nil_append]

theorem loadEntries_ok_of_all :
    ∀ (body : List (List Char)) (m : SparseMatrix) (idx : Nat),
      (∀ l ∈ body, strip l = [] ∨ (parseEntry (strip l)).isSome = true) →
      ∃ m', loadEntries m body idx = .ok m' := by
  intro body
  induction body with
  | nil => exact fun m idx _ => ⟨m, loadEntries_nil m idx⟩
  | cons l rest ih =>
    intro m idx h
    by_cases hs : strip l = []
    · rw [loadEntries_cons_empty m rest idx hs]
      exact ih m (idx + 1) (fun l' hl' => h l' (List.mem_cons_of_mem _ hl'))
    · rcases h l (List.mem_cons_self _ _) with hs' | hsome
      · exact absurd hs' hs
      · rcases Option.isSome_iff_exists.1 hsome with ⟨trip, htrip⟩
        obtain ⟨r, c, v⟩ := trip
        rw [loadEntries_cons_good m rest idx hs htrip]
        exact ih _ (idx + 1) (fun l' hl' => h l' (List.mem_cons_of_mem _ hl'))

theorem loadEntries_error_at :
    ∀ (pre : List (List Char)) (m : SparseMatrix) (idx : Nat) (bad : List Char)
      (rest : List (List Char)),
      (∀ l ∈ pre, strip l = [] ∨ (parseEntry (strip l)).isSome = true) →
      strip bad ≠ [] → parseEntry (strip bad) = none →
      loadEntries m (pre ++ bad :: rest) idx
        = .error (.malformedEntry (idx + pre.length + 1) (strip bad)) := by
  intro pre
  induction pre with
  | nil =>
    intro m idx bad rest _ hbad hnone
    rw [List.nil_append, loadEntries_cons_bad m rest idx hbad hnone]
    simp
  | cons l pre' ih =>
    intro m idx bad rest h hbad hnone
    have hlen : idx + 1 + pre'.length + 1 = idx + (l :: pre').length + 1 := by
      simp only [List.length_cons]
      omega
    rcases h l (List.mem_cons_self _ _) with hs | hsome
    · rw [List.cons_append, loadEntries_cons_empty m (pre' ++ bad :: rest) idx hs,
        ih m (idx + 1) bad rest (fun l' hl' => h l' (List.mem_cons_of_mem _ hl')) hbad hnone,
        hlen]
    · rcases Option.isSome_iff_exists.1 hsome with ⟨trip, htrip⟩
      obtain ⟨r, c, v⟩ := trip
      by_cases hs : strip l = []
      · rw [List.cons_append, loadEntries_cons_empty m (pre' ++ bad :: rest) idx hs,
          ih m (idx + 1) bad rest (fun l' hl' => h l' (List.mem_cons_of_mem _ hl')) hbad hnone,
          hlen]
      · rw [List.cons_append, loadEntries_cons_good m (pre' ++ bad :: rest) idx hs htrip,
          ih _ (idx + 1) bad rest (fun l' hl' => h l' (List.mem_cons_of_mem _ hl')) hbad hnone,
          hlen]

/-! ## Frame lemmas for the heap-level model -/

theorem storeSet_getD_ne (σ : Store) (r : Nat) (row col v : Int) (k : Nat) (hk : k ≠ r) :
    (storeSet σ r row col v).getD k default = σ.getD k default := by
  unfold storeSet
  rw [List.getD_eq_getElem?_getD, List.getElem?_set_ne (fun hh => hk hh.symm),
    ← List.getD_eq_getElem?_getD]

theorem foldl_frame {α : Type} (step : Store → α → Store) (res : Nat)
    (hstep : ∀ (s : Store) (x : α) (k : Nat), k ≠ res →
      (step s x).getD k default = s.getD k default) :
    ∀ (l : List α) (σ : Store) (k : Nat), k ≠ res →
      (l.foldl step σ).getD k default = σ.getD k default := by
  intro l
  induction l with
  | nil => exact fun σ k _ => rfl
  | cons x t ih =>
    intro σ k hk
    rw [List.foldl_cons, ih (step σ x) k hk, hstep σ x k hk]

theorem getD_append_lt (σ : Store) (x : SparseMatrix) (k : Nat) (hk : k < σ.length) :
    (σ ++ [x]).getD k default = σ.getD k default :=
  List.getD_append _ _ _ _ hk

/-- `add` on the heap: every store cell below `σ.length` is untouched (in
particular both operands), and a returned reference is the fresh cell. -/
theorem addS_spec (σ : Store) (a b : Nat) :
    (∀ k, k < σ.length → (addS σ a b).1.getD k default = σ.getD k default) ∧
      ∀ res, (addS σ a b).2 = .ok res → res = σ.length := by
  by_cases hdim : (storeObj σ a).row_count ≠ (storeObj σ b).row_count ∨
      (storeObj σ a).col_count ≠ (storeObj σ b).col_count
  · have hunf1 : (addS σ a b).1 = σ := by rw [addS, if_pos hdim]
    have hunf2 : (addS σ a b).2
        = .error "Matrices must have the same dimensions for addition." := by
      rw [addS, if_pos hdim]
    constructor
    · intro k _
      rw [hunf1]
    · intro res h
      rw [hunf2] at h
      exact Except.noConfusion h
  · have hunf1 : (addS σ a b).1
        = (storeObj σ b).data.foldl
            (fun s p => storeSet s σ.length p.1.1 p.1.2 (storeVal s σ.length p.1.1 p.1.2 + p.2))
            ((storeObj σ a).data.foldl
              (fun s p => storeSet s σ.length p.1.1 p.1.2 p.2)
              (σ ++ [⟨(storeObj σ a).row_count, (storeObj σ a).col_count, []⟩])) := by
      rw [addS, if_neg hdim]
    have hunf2 : (addS σ a b).2 = .ok σ.length := by rw [addS, if_neg hdim]
    constructor
    · intro k hk
      rw [hunf1,
        foldl_frame _ σ.length
          (fun s p k' hk' => storeSet_getD_ne s σ.length p.1.1 p.1.2 _ k' hk') _ _ k (by omega),
        foldl_frame _ σ.length
          (fun s p k' hk' => storeSet_getD_ne s σ.length p.1.1 p.1.2 _ k' hk') _ _ k (by omega),
        getD_append_lt σ _ k hk]
    · intro res h
      rw [hunf2] at h
      exact (Except.ok.inj h).symm

/-- `subtract` on the heap: same frame property as `add`. -/
theorem subtractS_spec (σ : Store) (a b : Nat) :
    (∀ k, k < σ.length → (subtractS σ a b).1.getD k default = σ.getD k default) ∧
      ∀ res, (subtractS σ a b).2 = .ok res → res = σ.length := by
  by_cases hdim : (storeObj σ a).row_count ≠ (storeObj σ b).row_count ∨
      (storeObj σ a).col_count ≠ (storeObj σ b).col_count
  · have hunf1 : (subtractS σ a b).1 = σ := by rw [subtractS, if_pos hdim]
    have hunf2 : (subtractS σ a b).2
        = .error "Matrices must have the same dimensions for subtraction." := by
      rw [subtractS, if_pos hdim]
    constructor
    · intro k _
      rw [hunf1]
    · intro res h
      rw [hunf2] at h
      exact Except.noConfusion h
  · have hunf1 : (subtractS σ a b).1
        = (storeObj σ b).data.foldl
            (fun s p => storeSet s σ.length p.1.1 p.1.2 (storeVal s σ.length p.1.1 p.1.2 - p.2))
            ((storeObj σ a).data.foldl
              (fun s p => storeSet s σ.length p.1.1 p.1.2 p.2)
              (σ ++ [⟨(storeObj σ a).row_count, (storeObj σ a).col_count, []⟩])) := by
      rw [subtractS, if_neg hdim]
    have hunf2 : (subtractS σ a b).2 = .ok σ.length := by rw [subtractS, if_neg hdim]
    constructor
    · intro k hk
      rw [hunf1,
        foldl_frame _ σ.length
          (fun s p k' hk' => storeSet_getD_ne s σ.length p.1.1 p.1.2 _ k' hk') _ _ k (by omega),
        foldl_frame _ σ.length
          (fun s p k' hk' => storeSet_getD_ne s σ.length p.1.1 p.1.2 _ k' hk') _ _ k (by omega),
        getD_append_lt σ _ k hk]
    · intro res h
      rw [hunf2] at h
      exact (Except.ok.inj h).symm

/-- `multiply` on the heap: same frame property. -/
theorem multiplyS_spec (σ : Store) (a b : Nat) :
    (∀ k, k < σ.length → (multiplyS σ a b).1.getD k default = σ.getD k default) ∧
      ∀ res, (multiplyS σ a b).2 = .ok res → res = σ.length := by
  by_cases hdim : (storeObj σ a).col_count ≠ (storeObj σ b).row_count
  · have hunf1 : (multiplyS σ a b).1 = σ := by rw [multiplyS, if_pos hdim]
    have hunf2 : (multiplyS σ a b).2 = .error
        "Number of columns of the first matrix must equal the number of rows of the second matrix." := by
      rw [multiplyS, if_pos hdim]
    constructor
    · intro k _
      rw [hunf1]
    · intro res h
      rw [hunf2] at h
      exact Except.noConfusion h
  · have hunf1 : (multiplyS σ a b).1
        = (storeObj σ a).data.foldl (fun s p =>
            (List.range (storeObj σ b).col_count.toNat).foldl (fun s2 (k : Nat) =>
              if (storeObj σ b).get_element p.1.2 (k : Int) ≠ 0 then
                storeSet s2 σ.length p.1.1 (k : Int)
                  (storeVal s2 σ.length p.1.1 (k : Int)
                    + p.2 * (storeObj σ b).get_element p.1.2 (k : Int))
              else s2) s) (σ ++ [⟨(storeObj σ a).row_count, (storeObj σ b).col_count, []⟩]) := by
      rw [multiplyS, if_neg hdim]
    have hunf2 : (multiplyS σ a b).2 = .ok σ.length := by rw [multiplyS, if_neg hdim]
    have hstep : ∀ (s : Store) (p : Key × Int) (k : Nat), k ≠ σ.length →
        ((List.range (storeObj σ b).col_count.toNat).foldl (fun s2 (k : Nat) =>
          if (storeObj σ b).get_element p.1.2 (k : Int) ≠ 0 then
            storeSet s2 σ.length p.1.1 (k : Int)
              (storeVal s2 σ.length p.1.1 (k : Int)
                + p.2 * (storeObj σ b).get_element p.1.2 (k : Int))
          else s2) s).getD k default = s.getD k default := by
      intro s p k hk
      refine foldl_frame _ σ.length (fun s2 k2 k' hk' => ?_) _ s k hk
      by_cases hov : (storeObj σ b).get_element p.1.2 (k2 : Int) ≠ 0
      · rw [if_pos hov]
        exact storeSet_getD_ne s2 σ.length p.1.1 _ _ k' hk'
      · rw [if_neg hov]
    constructor
    · intro k hk
      rw [hunf1, foldl_frame _ σ.length hstep _ _ k (by omega), getD_append_lt σ _ k hk]
    · intro res h
      rw [hunf2] at h
      exact (Except.ok.inj h).symm

/-! ## The claims -/

/-- C1: for every pair of (well-formed) matrices A and B with equal
`row_count` and `col_count`, `add(A, B)` returns a matrix whose
`get(r, c)` equals `A.get(r, c) + B.get(r, c)` at every position `(r, c)`
with `r < row_count` and `c < col_count`. -/
theorem claim_C1 (A B : SparseMatrix) (hA : Wf A) (hB : Wf B)
    (hr : A.row_count = B.row_count) (hc : A.col_count = B.col_count) :
    ∃ S, A.add B = .ok S ∧ ∀ r c : Int, 0 ≤ r → r < A.row_count → 0 ≤ c → c < A.col_count →
      S.get_element r c = A.get_element r c + B.get_element r c := by
  obtain ⟨S, h1, _, _, _, h5⟩ := add_spec A B hA hB hr hc
  exact ⟨S, h1, fun r c _ _ _ _ => h5 r c⟩

theorem claim_C1_witness :
    ∃ S, (⟨2, 2, [((0, 0), 3)]⟩ : SparseMatrix).add ⟨2, 2, [((0, 1), 4)]⟩ = .ok S ∧
      ∀ r c : Int, 0 ≤ r → r < (⟨2, 2, [((0, 0), 3)]⟩ : SparseMatrix).row_count → 0 ≤ c →
        c < (⟨2, 2, [((0, 0), 3)]⟩ : SparseMatrix).col_count →
        S.get_element r c
          = (⟨2, 2, [((0, 0), 3)]⟩ : SparseMatrix).get_element r c
            + (⟨2, 2, [((0, 1), 4)]⟩ : SparseMatrix).get_element r c :=
  claim_C1 ⟨2, 2, [((0, 0), 3)]⟩ ⟨2, 2, [((0, 1), 4)]⟩ (by decide) (by decide) rfl rfl

/-- C2: for (well-formed) matrices with `A.col_count = B.row_count`,
`multiply(A, B)` has dimensions `A.row_count × B.col_count` and
`get(i, j)` is the sum over `k < A.col_count` of `A.get(i,k) * B.get(k,j)`;
in particular the 1×2 by 2×1 example yields the 1×1 matrix with value 11. -/
theorem claim_C2 (A B : SparseMatrix) (hA : Wf A) (hB : Wf B)
    (hd : A.col_count = B.row_count) :
    (∃ P, A.multiply B = .ok P ∧ P.row_count = A.row_count ∧ P.col_count = B.col_count ∧
      ∀ i j : Int, 0 ≤ i → i < A.row_count → 0 ≤ j → j < B.col_count →
        P.get_element i j = ∑ k ∈ Finset.range A.col_count.toNat,
          A.get_element i (k : Int) * B.get_element (k : Int) j) ∧
    SparseMatrix.multiply ⟨1, 2, [((0, 0), 1), ((0, 1), 2)]⟩ ⟨2, 1, [((0, 0), 3), ((1, 0), 4)]⟩
      = .ok ⟨1, 1, [((0, 0), 11)]⟩ := by
  constructor
  · obtain ⟨P, h1, h2, h3, _, h5⟩ := multiply_spec A B hA hB hd
    exact ⟨P, h1, h2, h3, fun i j _ _ hj0 hj => h5 i j hj0 hj⟩
  · decide

theorem claim_C2_witness :
    (∃ P, SparseMatrix.multiply ⟨1, 2, [((0, 0), 1), ((0, 1), 2)]⟩
        ⟨2, 1, [((0, 0), 3), ((1, 0), 4)]⟩ = .ok P ∧
      P.row_count = (⟨1, 2, [((0, 0), 1), ((0, 1), 2)]⟩ : SparseMatrix).row_count ∧
      P.col_count = (⟨2, 1, [((0, 0), 3), ((1, 0), 4)]⟩ : SparseMatrix).col_count ∧
      ∀ i j : Int, 0 ≤ i → i < (⟨1, 2, [((0, 0), 1), ((0, 1), 2)]⟩ : SparseMatrix).row_count →
        0 ≤ j → j < (⟨2, 1, [((0, 0), 3), ((1, 0), 4)]⟩ : SparseMatrix).col_count →
        P.get_element i j
          = ∑ k ∈ Finset.range (⟨1, 2, [((0, 0), 1), ((0, 1), 2)]⟩ :
              SparseMatrix).col_count.toNat,
            (⟨1, 2, [((0, 0), 1), ((0, 1), 2)]⟩ : SparseMatrix).get_element i (k : Int)
              * (⟨2, 1, [((0, 0), 3), ((1, 0), 4)]⟩ : SparseMatrix).get_element (k : Int) j) ∧
    SparseMatrix.multiply ⟨1, 2, [((0, 0), 1), ((0, 1), 2)]⟩ ⟨2, 1, [((0, 0), 3), ((1, 0), 4)]⟩
      = .ok ⟨1, 1, [((0, 0), 11)]⟩ :=
  claim_C2 ⟨1, 2, [((0, 0), 1), ((0, 1), 2)]⟩ ⟨2, 1, [((0, 0), 3), ((1, 0), 4)]⟩
    (by decide) (by decide) rfl

/-- C3: each of add, subtract and multiply fails (with the dimension-
mismatch `ValueError`) exactly when its shape requirement is violated, the
error is returned in place of any result, and in particular multiplying a
2×3 matrix by a 4×2 matrix fails that way. -/
theorem claim_C3 :
    (∀ A B : SparseMatrix,
      (∃ S, A.add B = .ok S) ↔ A.row_count = B.row_count ∧ A.col_count = B.col_count) ∧
    (∀ A B : SparseMatrix, (A.row_count ≠ B.row_count ∨ A.col_count ≠ B.col_count) →
      A.add B = .error "Matrices must have the same dimensions for addition.") ∧
    (∀ A B : SparseMatrix,
      (∃ S, A.subtract B = .ok S) ↔ A.row_count = B.row_count ∧ A.col_count = B.col_count) ∧
    (∀ A B : SparseMatrix, (A.row_count ≠ B.row_count ∨ A.col_count ≠ B.col_count) →
      A.subtract B = .error "Matrices must have the same dimensions for subtraction.") ∧
    (∀ A B : SparseMatrix, (∃ P, A.multiply B = .ok P) ↔ A.col_count = B.row_count) ∧
    (∀ A B : SparseMatrix, A.col_count ≠ B.row_count →
      A.multiply B = .error
        "Number of columns of the first matrix must equal the number of rows of the second matrix.") ∧
    (∀ A B : SparseMatrix, A.row_count = 2 → A.col_count = 3 → B.row_count = 4 →
      B.col_count = 2 → A.multiply B = .error
        "Number of columns of the first matrix must equal the number of rows of the second matrix.") := by
  refine ⟨?_, ?_, ?_, ?_, ?_, ?_, ?_⟩
  · intro A B
    constructor
    · rintro ⟨S, hS⟩
      by_contra hcon
      rw [not_and_or] at hcon
      rw [SparseMatrix.add, if_pos hcon] at hS
      exact Except.noConfusion hS
    · rintro ⟨h1, h2⟩
      rw [SparseMatrix.add, if_neg (by simp [h1, h2])]
      exact ⟨_, rfl⟩
  · intro A B h
    rw [SparseMatrix.add, if_pos h]
  · intro A B
    constructor
    · rintro ⟨S, hS⟩
      by_contra hcon
      rw [not_and_or] at hcon
      rw [SparseMatrix.subtract, if_pos hcon] at hS
      exact Except.noConfusion hS
    · rintro ⟨h1, h2⟩
      rw [SparseMatrix.subtract, if_neg (by simp [h1, h2])]
      exact ⟨_, rfl⟩
  · intro A B h
    rw [SparseMatrix.subtract, if_pos h]
  · intro A B
    constructor
    · rintro ⟨P, hP⟩
      by_contra hcon
      rw [SparseMatrix.multiply, if_pos hcon] at hP
      exact Except.noConfusion hP
    · intro h1
      rw [SparseMatrix.multiply, if_neg (by simp [h1])]
      exact ⟨_, rfl⟩
  · intro A B h
    rw [SparseMatrix.multiply, if_pos h]
  · intro A B h1 h2 h3 h4
    rw [SparseMatrix.multiply, if_pos (by rw [h2, h3]; decide)]

theorem claim_C3_witness :
    (⟨2, 3, []⟩ : SparseMatrix).multiply ⟨4, 2, []⟩ = .error
      "Number of columns of the first matrix must equal the number of rows of the second matrix." :=
  claim_C3.2.2.2.2.2.2 ⟨2, 3, []⟩ ⟨4, 2, []⟩ rfl rfl rfl rfl

/-- C4 counterexample: the loader uses `re.match`, which anchors only at the
start of the line, so a line with extra characters after the triple — here
`"(0, 0, 5)junk"` — is accepted and loading succeeds, where the claim says
any line that does not match the triple format in its entirety must make
loading fail with `MalformedEntry`. -/
theorem claim_C4_counterexample :
    from_lines ["rows=1".toList, "cols=1".toList, "(0, 0, 5)junk".toList]
      = .ok ⟨1, 1, [((0, 0), 5)]⟩ := by decide

/-- C4 (amended): for input with a well-formed two-line header, each
subsequent line is skipped if empty after trimming, and is accepted exactly
when a *prefix* of it matches the triple pattern
`\((\d+),\s*(\d+),\s*(-?\d+)\)` (trailing characters after the closing
parenthesis are ignored, as `re.match` does not anchor at the end); the
first line that fails this prefix match makes loading fail with a
`MalformedEntry` error carrying that line's 1-based number and its stripped
content. -/
theorem claim_C4 (l0 l1 : List Char) (body : List (List Char)) (R C : Nat)
    (hr : parseRows (strip l0) = some R) (hc : parseCols (strip l1) = some C) :
    ((∀ l ∈ body, strip l = [] ∨ (parseEntry (strip l)).isSome = true) →
      ∃ m, from_lines (l0 :: l1 :: body) = .ok m) ∧
    (∀ pre bad rest, body = pre ++ bad :: rest →
      (∀ l ∈ pre, strip l = [] ∨ (parseEntry (strip l)).isSome = true) →
      strip bad ≠ [] → parseEntry (strip bad) = none →
      from_lines (l0 :: l1 :: body)
        = .error (.malformedEntry (pre.length + 3) (strip bad))) := by
  constructor
  · intro hall
    rw [from_lines_ok_arm l0 l1 body hr hc]
    exact loadEntries_ok_of_all body _ 2 hall
  · intro pre bad rest hbody hpre hbad hnone
    rw [from_lines_ok_arm l0 l1 body hr hc, hbody,
      loadEntries_error_at pre _ 2 bad rest hpre hbad hnone,
      show 2 + pre.length + 1 = pre.length + 3 from by omega]

theorem claim_C4_witness :
    from_lines ["rows=2".toList, "cols=2".toList, "(1, 2)".toList]
      = .error (.malformedEntry 3 "(1, 2)".toList) := by
  have h := (claim_C4 "rows=2".toList "cols=2".toList ["(1, 2)".toList] 2 2
    (by decide) (by decide)).2 [] "(1, 2)".toList [] rfl (by simp) (by decide) (by decide)
  exact h

/-- C5: after any `set_element` call the dimension metadata covers the new
key (`row_count` becomes `max(row_count, row+1)` and likewise for columns),
every stored key stays strictly below the dimension metadata, and this
invariant holds for the result of every operation that constructs a matrix
(add, subtract, multiply, and the loader). -/
theorem claim_C5 :
    (∀ (m : SparseMatrix) (r c v : Int), 0 ≤ r → 0 ≤ c →
      (m.set_element r c v).row_count = max m.row_count (r + 1) ∧
      (m.set_element r c v).col_count = max m.col_count (c + 1) ∧
      (BelowDims m → BelowDims (m.set_element r c v))) ∧
    (∀ A B S : SparseMatrix, A.add B = .ok S → BelowDims S) ∧
    (∀ A B S : SparseMatrix, A.subtract B = .ok S → BelowDims S) ∧
    (∀ A B P : SparseMatrix, A.multiply B = .ok P → BelowDims P) ∧
    (∀ (ls : List (List Char)) (m : SparseMatrix), from_lines ls = .ok m → BelowDims m) := by
  refine ⟨?_, ?_, ?_, ?_, ?_⟩
  · intro m r c v _ _
    exact ⟨SparseMatrix.set_row_count m r c v, SparseMatrix.set_col_count m r c v,
      SparseMatrix.belowDims_set r c v⟩
  · intro A B S h
    by_cases hcond : A.row_count ≠ B.row_count ∨ A.col_count ≠ B.col_count
    · rw [SparseMatrix.add, if_pos hcond] at h
      exact Except.noConfusion h
    · rw [SparseMatrix.add, if_neg hcond] at h
      rw [← Except.ok.inj h]
      exact addLoop_belowDims _ _
        (copyLoop_belowDims _ _ (fun p hp => absurd hp (List.not_mem_nil p)))
  · intro A B S h
    by_cases hcond : A.row_count ≠ B.row_count ∨ A.col_count ≠ B.col_count
    · rw [SparseMatrix.subtract, if_pos hcond] at h
      exact Except.noConfusion h
    · rw [SparseMatrix.subtract, if_neg hcond] at h
      rw [← Except.ok.inj h]
      exact subLoop_belowDims _ _
        (copyLoop_belowDims _ _ (fun p hp => absurd hp (List.not_mem_nil p)))
  · intro A B P h
    by_cases hcond : A.col_count ≠ B.row_count
    · rw [SparseMatrix.multiply, if_pos hcond] at h
      exact Except.noConfusion h
    · rw [SparseMatrix.multiply, if_neg hcond] at h
      rw [← Except.ok.inj h]
      exact mulLoop_belowDims _ _ _ _ (fun p hp => absurd hp (List.not_mem_nil p))
  · intro ls m h
    have hinv := from_lines_inv h
    intro p hp
    exact ⟨(hinv.2.2.2 p hp).2.1, (hinv.2.2.2 p hp).2.2.2⟩

theorem claim_C5_witness :
    BelowDims ((⟨1, 1, []⟩ : SparseMatrix).set_element 0 0 7) :=
  (claim_C5.1 ⟨1, 1, []⟩ 0 0 7 (by decide) (by decide)).2.2 (by decide)

/-- C6: any text that loads successfully into a matrix M serializes to text
that loads back into a matrix with the same dimensions and the same
`get(r, c)` at every in-range position. -/
theorem claim_C6 (ls : List (List Char)) (M : SparseMatrix) (h : from_lines ls = .ok M) :
    ∃ M', from_lines (toLines M) = .ok M' ∧ M'.row_count = M.row_count ∧
      M'.col_count = M.col_count ∧
      ∀ r c : Int, 0 ≤ r → r < M.row_count → 0 ≤ c → c < M.col_count →
        M'.get_element r c = M.get_element r c :=
  ⟨M, from_lines_toLines (from_lines_inv h), rfl, rfl, fun _ _ _ _ _ _ => rfl⟩

theorem claim_C6_witness :
    ∃ M', from_lines (toLines (⟨2, 2, [((0, 1), -5)]⟩ : SparseMatrix)) = .ok M' ∧
      M'.row_count = (⟨2, 2, [((0, 1), -5)]⟩ : SparseMatrix).row_count ∧
      M'.col_count = (⟨2, 2, [((0, 1), -5)]⟩ : SparseMatrix).col_count ∧
      ∀ r c : Int, 0 ≤ r → r < (⟨2, 2, [((0, 1), -5)]⟩ : SparseMatrix).row_count → 0 ≤ c →
        c < (⟨2, 2, [((0, 1), -5)]⟩ : SparseMatrix).col_count →
        M'.get_element r c = (⟨2, 2, [((0, 1), -5)]⟩ : SparseMatrix).get_element r c :=
  claim_C6 ["rows=2".toList, "cols=2".toList, "(0, 1, -5)".toList]
    ⟨2, 2, [((0, 1), -5)]⟩ (by decide)

/-- C7: multiplication distributes over addition — for compatible
well-formed A, B, C, `multiply(add(A,B), C)` agrees with
`add(multiply(A,C), multiply(B,C))` at every position of the common result
shape. -/
theorem claim_C7 (A B C : SparseMatrix) (hA : Wf A) (hB : Wf B) (hC : Wf C)
    (hr : A.row_count = B.row_count) (hc : A.col_count = B.col_count)
    (hd : A.col_count = C.row_count) :
    ∃ S P Pa Pb R,
      A.add B = .ok S ∧ S.multiply C = .ok P ∧
      A.multiply C = .ok Pa ∧ B.multiply C = .ok Pb ∧ Pa.add Pb = .ok R ∧
      P.row_count = R.row_count ∧ P.col_count = R.col_count ∧
      ∀ i j : Int, 0 ≤ i → i < P.row_count → 0 ≤ j → j < P.col_count →
        P.get_element i j = R.get_element i j := by
  obtain ⟨S, hS, hSr, hSc, hSwf, hSget⟩ := add_spec A B hA hB hr hc
  obtain ⟨P, hP, hPr, hPc, hPwf, hPget⟩ := multiply_spec S C hSwf hC (by rw [hSc, hd])
  obtain ⟨Pa, hPa, hPar, hPac, hPawf, hPaget⟩ := multiply_spec A C hA hC hd
  obtain ⟨Pb, hPb, hPbr, hPbc, hPbwf, hPbget⟩ := multiply_spec B C hB hC (by rw [← hc, hd])
  obtain ⟨R, hR, hRr, hRc, hRwf, hRget⟩ := add_spec Pa Pb hPawf hPbwf
    (by rw [hPar, hPbr, hr]) (by rw [hPac, hPbc])
  refine ⟨S, P, Pa, Pb, R, hS, hP, hPa, hPb, hR, ?_, ?_, ?_⟩
  · rw [hPr, hSr, hRr, hPar]
  · rw [hPc, hRc, hPac]
  · intro i j hi0 hir hj0 hjc
    have hjC : j < C.col_count := by
      rw [← hPc]
      exact hjc
    rw [hPget i j hj0 hjC, hRget i j, hPaget i j hj0 hjC, hPbget i j hj0 hjC, hSc, ← hc,
      ← Finset.sum_add_distrib]
    refine Finset.sum_congr rfl (fun k _ => ?_)
    rw [hSget i (k : Int)]
    ring

theorem claim_C7_witness :
    ∃ S P Pa Pb R,
      (⟨1, 1, [((0, 0), 2)]⟩ : SparseMatrix).add ⟨1, 1, [((0, 0), 3)]⟩ = .ok S ∧
      S.multiply ⟨1, 1, [((0, 0), 5)]⟩ = .ok P ∧
      (⟨1, 1, [((0, 0), 2)]⟩ : SparseMatrix).multiply ⟨1, 1, [((0, 0), 5)]⟩ = .ok Pa ∧
      (⟨1, 1, [((0, 0), 3)]⟩ : SparseMatrix).multiply ⟨1, 1, [((0, 0), 5)]⟩ = .ok Pb ∧
      Pa.add Pb = .ok R ∧
      P.row_count = R.row_count ∧ P.col_count = R.col_count ∧
      ∀ i j : Int, 0 ≤ i → i < P.row_count → 0 ≤ j → j < P.col_count →
        P.get_element i j = R.get_element i j :=
  claim_C7 ⟨1, 1, [((0, 0), 2)]⟩ ⟨1, 1, [((0, 0), 3)]⟩ ⟨1, 1, [((0, 0), 5)]⟩
    (by decide) (by decide) (by decide) rfl rfl rfl

/-- C8: `get_element` is total, and returns 0 at any pair of non-negative
indices where no entry is stored — including indices at or beyond the
dimension metadata. -/
theorem claim_C8 (m : SparseMatrix) (r c : Int) (hr : 0 ≤ r) (hc : 0 ≤ c)
    (habsent : ∀ p ∈ m.data, p.1 ≠ (r, c)) : m.get_element r c = 0 :=
  dictGet_eq_zero_of_not_mem (by
    intro hmem
    rcases List.mem_map.1 hmem with ⟨p, hp, hp'⟩
    exact habsent p hp hp')

theorem claim_C8_witness : (⟨1, 1, [((0, 0), 9)]⟩ : SparseMatrix).get_element 5 7 = 0 :=
  claim_C8 ⟨1, 1, [((0, 0), 9)]⟩ 5 7 (by decide) (by decide) (by decide)

/-- C9: on the heap-level model, each of add, subtract and multiply writes
only to a freshly allocated result object: every store cell that existed
before the call — in particular both operands — is unchanged afterwards
(also when the operation fails), and a returned reference is the fresh
cell. -/
theorem claim_C9 (σ : Store) (a b k : Nat) (hk : k < σ.length) :
    ((addS σ a b).1.getD k default = σ.getD k default ∧
      (subtractS σ a b).1.getD k default = σ.getD k default ∧
      (multiplyS σ a b).1.getD k default = σ.getD k default) ∧
    ((∀ res, (addS σ a b).2 = .ok res → res = σ.length) ∧
      (∀ res, (subtractS σ a b).2 = .ok res → res = σ.length) ∧
      (∀ res, (multiplyS σ a b).2 = .ok res → res = σ.length)) :=
  ⟨⟨(addS_spec σ a b).1 k hk, (subtractS_spec σ a b).1 k hk, (multiplyS_spec σ a b).1 k hk⟩,
    (addS_spec σ a b).2, (subtractS_spec σ a b).2, (multiplyS_spec σ a b).2⟩

theorem claim_C9_witness :
    ((addS [⟨1, 1, [((0, 0), 2)]⟩, ⟨1, 1, [((0, 0), 3)]⟩] 0 1).1.getD 0 default
        = ([⟨1, 1, [((0, 0), 2)]⟩, ⟨1, 1, [((0, 0), 3)]⟩] : Store).getD 0 default ∧
      (subtractS [⟨1, 1, [((0, 0), 2)]⟩, ⟨1, 1, [((0, 0), 3)]⟩] 0 1).1.getD 0 default
        = ([⟨1, 1, [((0, 0), 2)]⟩, ⟨1, 1, [((0, 0), 3)]⟩] : Store).getD 0 default ∧
      (multiplyS [⟨1, 1, [((0, 0), 2)]⟩, ⟨1, 1, [((0, 0), 3)]⟩] 0 1).1.getD 0 default
        = ([⟨1, 1, [((0, 0), 2)]⟩, ⟨1, 1, [((0, 0), 3)]⟩] : Store).getD 0 default) ∧
    ((∀ res, (addS [⟨1, 1, [((0, 0), 2)]⟩, ⟨1, 1, [((0, 0), 3)]⟩] 0 1).2 = .ok res →
        res = ([⟨1, 1, [((0, 0), 2)]⟩, ⟨1, 1, [((0, 0), 3)]⟩] : Store).length) ∧
      (∀ res, (subtractS [⟨1, 1, [((0, 0), 2)]⟩, ⟨1, 1, [((0, 0), 3)]⟩] 0 1).2 = .ok res →
        res = ([⟨1, 1, [((0, 0), 2)]⟩, ⟨1, 1, [((0, 0), 3)]⟩] : Store).length) ∧
      (∀ res, (multiplyS [⟨1, 1, [((0, 0), 2)]⟩, ⟨1, 1, [((0, 0), 3)]⟩] 0 1).2 = .ok res →
        res = ([⟨1, 1, [((0, 0), 2)]⟩, ⟨1, 1, [((0, 0), 3)]⟩] : Store).length)) :=
  claim_C9 [⟨1, 1, [((0, 0), 2)]⟩, ⟨1, 1, [((0, 0), 3)]⟩] 0 1 0 (by decide)

/-- C10 counterexample: calling `set_element(-1, 5, 7)` on a 1×1 matrix is a
call with a negative row index, yet it does *not* leave both counts
unchanged: `col_count` expands from 1 to 6 because the column index 5
exceeds the bound. -/
theorem claim_C10_counterexample :
    ((⟨1, 1, []⟩ : SparseMatrix).set_element (-1) 5 7).col_count = 6 ∧
      (⟨1, 1, []⟩ : SparseMatrix).col_count = 1 := by decide

/-- C10 (amended): `set_element` raises no error on negative indices and
stores the entry under the negative key, with a subsequent `get_element` at
the same indices returning the stored value; a negative row index leaves
`row_count` unchanged and a negative column index leaves `col_count`
unchanged (when the respective count is non-negative) — but a count whose
index is non-negative and out of range still expands. -/
theorem claim_C10 (m : SparseMatrix) (r c v : Int) :
    (0 ≤ m.row_count → r < 0 → (m.set_element r c v).row_count = m.row_count) ∧
    (0 ≤ m.col_count → c < 0 → (m.set_element r c v).col_count = m.col_count) ∧
    (m.set_element r c v).get_element r c = v := by
  refine ⟨?_, ?_, ?_⟩
  · intro h1 h2
    rw [SparseMatrix.set_row_count]
    exact max_eq_left (by omega)
  · intro h1 h2
    rw [SparseMatrix.set_col_count]
    exact max_eq_left (by omega)
  · rw [SparseMatrix.get_set, if_pos ⟨rfl, rfl⟩]

theorem claim_C10_witness :
    ((⟨1, 1, []⟩ : SparseMatrix).set_element (-1) (-2) 7).row_count = 1 ∧
      ((⟨1, 1, []⟩ : SparseMatrix).set_element (-1) (-2) 7).col_count = 1 ∧
      ((⟨1, 1, []⟩ : SparseMatrix).set_element (-1) (-2) 7).get_element (-1) (-2) = 7 :=
  ⟨(claim_C10 ⟨1, 1, []⟩ (-1) (-2) 7).1 (by decide) (by decide),
    (claim_C10 ⟨1, 1, []⟩ (-1) (-2) 7).2.1 (by decide) (by decide),
    (claim_C10 ⟨1, 1, []⟩ (-1) (-2) 7).2.2⟩

end Sparse
